import Mathlib

/-!
# serde-csv-core: a shallow embedding and verification of its specification

This file models the CSV serialization / deserialization drivers of the
`serde-csv-core` crate (`src/ser.rs`, `src/de.rs`) together with the byte-level
behaviour of the external `csv_core` writer/reader it drives, in their default
configuration (delimiter `,` = 44, quote `"` = 34, writer terminator `\n` = 10,
reader terminator CRLF: `\r` = 13 or `\n` = 10).

Bytes are modelled as `Nat`; byte strings as `List Nat`.  Machine integers are
modelled as `Int` with explicit range bounds.  Rust panics (`unimplemented!`)
are modelled as an explicit `panicked` outcome, distinct from returned errors.
-/

namespace SerdeCsvCore

/-- ASCII / byte constants used by the default CSV configuration. -/
def DELIM : Nat := 44
def QUOTE : Nat := 34
def LF : Nat := 10
def CR : Nat := 13

/-- The bytes `true` (serialized form of `true`, `ser.rs serialize_bool`). -/
def trueBytes : List Nat := [116, 114, 117, 101]

/-- The bytes `false` (serialized form of `false`, `ser.rs serialize_bool`). -/
def falseBytes : List Nat := [102, 97, 108, 115, 101]

/-! ## csv_core writer model (default configuration)

`csv_core::Writer::field` quotes a field iff it contains a byte that requires
quoting (delimiter, quote, CR, LF in the default configuration), doubling any
embedded quote.  `csv_core::Writer::terminator` writes `""` before the
terminator when zero bytes were written for the current record, so that a
record consisting of one empty field stays distinguishable from no record. -/

/-- Does this byte force the containing field to be quoted? -/
def isSpecial (b : Nat) : Bool := b == DELIM || b == QUOTE || b == LF || b == CR

/-- Double every embedded quote byte (csv_core double-quote escaping). -/
def escQ : List Nat → List Nat
  | [] => []
  | b :: bs => if b = QUOTE then QUOTE :: QUOTE :: escQ bs else b :: escQ bs

/-- The wire form of one field: quoted (with doubled quotes) iff it contains a
special byte, otherwise the raw bytes (`csv_core::Writer::field`). -/
def writeField (f : List Nat) : List Nat :=
  if f.any isSpecial then QUOTE :: escQ f ++ [QUOTE] else f

/-- The tokens the serialization driver asks the csv_core writer to emit:
one `fld` per scalar leaf, `delim` between compound elements, `term` once at
the end of `Writer::serialize`. -/
inductive Tok where
  | fld (f : List Nat)
  | delim
  | term
deriving DecidableEq, Repr

/-- Render a token stream to bytes, threading csv_core's count of bytes
written for the current record (`rb`): a `term` emitted with zero record
bytes writes `""` first. -/
def renderToks : List Tok → Nat → List Nat
  | [], _ => []
  | .fld f :: ts, rb =>
      writeField f ++ renderToks ts (rb + (writeField f).length)
  | .delim :: ts, rb => DELIM :: renderToks ts (rb + 1)
  | .term :: ts, rb =>
      (if rb = 0 then [QUOTE, QUOTE, LF] else [LF]) ++ renderToks ts 0

/-! ## The value universe (serialize side)

The shapes the `serde` data model presents to `Serializer` in `ser.rs`:
scalar leaves, `None`/`Some`, newtype structs, and the compounds that all
funnel into `Compound` (seq, tuple, tuple struct = array, struct). -/

mutual
inductive Value where
  | bool (b : Bool)
  | int (n : Int)
  | char (c : Nat)
  | str (s : List Nat)
  | bytes (bs : List Nat)
  | unit
  | unitStruct (name : List Nat)
  | unitVariant (name : List Nat)
  | none
  | some (v : Value)
  | newtype (v : Value)
  | tuple (vs : Values)
  | array (vs : Values)
  | struct_ (vs : Values)
  | seq (vs : Values)

inductive Values where
  | nil
  | cons (v : Value) (vs : Values)
end

/-- Decimal digits of `n`, most significant first, as ASCII bytes.  The fuel
argument only serves structural recursion; `natDecimal` supplies enough. -/
def natDecimalAux : Nat → Nat → List Nat
  | 0, _ => []
  | fuel + 1, n => if n < 10 then [48 + n] else natDecimalAux fuel (n / 10) ++ [48 + n % 10]

/-- ASCII decimal representation of a natural number (as `itoa` prints it). -/
def natDecimal (n : Nat) : List Nat := natDecimalAux (n + 1) n

/-- ASCII decimal representation of an integer, `-` prefix for negatives
(as `itoa` prints Rust's signed integers). -/
def intRepr (n : Int) : List Nat :=
  if n < 0 then 45 :: natDecimal n.natAbs else natDecimal n.toNat

/-- UTF-8 encoding of a Unicode scalar value (`char::encode_utf8`). -/
def utf8EncodeChar (c : Nat) : List Nat :=
  if c < 0x80 then [c]
  else if c < 0x800 then [0xC0 + c / 64, 0x80 + c % 64]
  else if c < 0x10000 then [0xE0 + c / 4096, 0x80 + c / 64 % 64, 0x80 + c % 64]
  else [0xF0 + c / 262144, 0x80 + c / 4096 % 64, 0x80 + c / 64 % 64, 0x80 + c % 64]

/-! ### The serialization driver (`ser.rs`)

`Serializer`'s leaf hooks each write one field; `serialize_some` and
`serialize_newtype_struct` delegate; every compound hook returns a `Compound`
whose `element` emits a delimiter before every element except the first
(`nfields > 0`) and then serializes the element. -/

mutual
/-- Tokens emitted by `value.serialize(&mut serializer)` for one value. -/
def serVal : Value → List Tok
  | .bool b => [.fld (if b then trueBytes else falseBytes)]
  | .int n => [.fld (intRepr n)]
  | .char c => [.fld (utf8EncodeChar c)]
  | .str s => [.fld s]
  | .bytes bs => [.fld bs]
  | .unit => [.fld []]
  | .unitStruct name => [.fld name]
  | .unitVariant name => [.fld name]
  | .none => [.fld []]
  | .some v => serVal v
  | .newtype v => serVal v
  | .tuple vs => serElems vs
  | .array vs => serElems vs
  | .struct_ vs => serElems vs
  | .seq vs => serElems vs

/-- Tokens emitted by a `Compound` for its element list: a delimiter before
every element except the first (`Compound::element`). -/
def serElems : Values → List Tok
  | .nil => []
  | .cons v .nil => serVal v
  | .cons v vs => serVal v ++ .delim :: serElems vs
end

/-- `Writer::serialize`: serialize the value, then ask the writer for the
record terminator.  The output buffer is taken large enough (the claims about
serialization all assume a successful write). -/
def serTop (v : Value) : List Tok := serVal v ++ [.term]

/-- The bytes `Writer::serialize` leaves in the output buffer. -/
def serializeBytes (v : Value) : List Nat := renderToks (serTop v) 0

/-! ### Leaf and delimiter counting (claim C4) -/

mutual
/-- Number of scalar leaves (= CSV fields emitted) of a value. -/
def leafCount : Value → Nat
  | .bool _ | .int _ | .char _ | .str _ | .bytes _ => 1
  | .unit | .unitStruct _ | .unitVariant _ | .none => 1
  | .some v => leafCount v
  | .newtype v => leafCount v
  | .tuple vs | .array vs | .struct_ vs | .seq vs => leafCountElems vs

def leafCountElems : Values → Nat
  | .nil => 0
  | .cons v vs => leafCount v + leafCountElems vs
end

/-- Number of delimiter tokens in a token stream. -/
def delimCount : List Tok → Nat
  | [] => 0
  | .delim :: ts => delimCount ts + 1
  | _ :: ts => delimCount ts

/-- Number of terminator tokens in a token stream. -/
def termCount : List Tok → Nat
  | [] => 0
  | .term :: ts => termCount ts + 1
  | _ :: ts => termCount ts

mutual
/-- Every compound node (tuple / array / struct / seq) has at least one
element, recursively. -/
def allNonEmpty : Value → Bool
  | .bool _ | .int _ | .char _ | .str _ | .bytes _ => true
  | .unit | .unitStruct _ | .unitVariant _ | .none => true
  | .some v => allNonEmpty v
  | .newtype v => allNonEmpty v
  | .tuple vs | .array vs | .struct_ vs | .seq vs =>
      (match vs with | .nil => false | .cons _ _ => true) && allNonEmptyElems vs

def allNonEmptyElems : Values → Bool
  | .nil => true
  | .cons v vs => allNonEmpty v && allNonEmptyElems vs
end

/-! ## csv_core reader model (default configuration)

`csv_core::Reader::read_field` is incremental; the deserialization driver in
`de.rs` feeds it the whole remaining input and a scratch buffer of capacity
`N` once per field, so its behaviour is captured by a function of the reader
state, the remaining input, and the capacity.  The state records whether a
bare `\r` terminator was just consumed (a following `\n` is swallowed) and
whether the reader stands inside a record (so that end of input yields a
final `Field {record_end: true}` rather than `End`). -/

structure RState where
  afterCR : Bool
  inRecord : Bool
deriving DecidableEq, Repr

/-- Result of one `read_field` call. -/
inductive FieldRes where
  | inputEmpty
  | outFull
  | fld (recordEnd : Bool)
  | eof
deriving DecidableEq, Repr

/-- Scan an unquoted field: the field ends at a delimiter or terminator; any
other byte is copied to scratch if it fits.  Returns result, total input
consumed, scratch contents, next reader state. -/
def scanUnquoted (cap : Nat) (acc : List Nat) (consumed : Nat) :
    List Nat → FieldRes × Nat × List Nat × RState
  | [] => (.inputEmpty, consumed, acc, ⟨false, true⟩)
  | b :: rest =>
      if b = DELIM then (.fld false, consumed + 1, acc, ⟨false, true⟩)
      else if b = LF then (.fld true, consumed + 1, acc, ⟨false, false⟩)
      else if b = CR then (.fld true, consumed + 1, acc, ⟨true, false⟩)
      else if acc.length = cap then (.outFull, consumed, acc, ⟨false, true⟩)
      else scanUnquoted cap (acc ++ [b]) (consumed + 1) rest

/-- Scan the inside of a quoted field: a doubled quote unescapes to one quote;
a quote followed by a delimiter / terminator closes the field; a quote
followed by any other byte writes that byte and continues unquoted
(csv_core's lenient double-quote automaton). -/
def scanQuoted (cap : Nat) (acc : List Nat) (consumed : Nat) :
    List Nat → FieldRes × Nat × List Nat × RState
  | [] => (.inputEmpty, consumed, acc, ⟨false, true⟩)
  | b :: rest =>
      if b = QUOTE then
        match rest with
        | [] => (.inputEmpty, consumed + 1, acc, ⟨false, true⟩)
        | c :: rest2 =>
            if c = DELIM then (.fld false, consumed + 2, acc, ⟨false, true⟩)
            else if c = LF then (.fld true, consumed + 2, acc, ⟨false, false⟩)
            else if c = CR then (.fld true, consumed + 2, acc, ⟨true, false⟩)
            else if acc.length = cap then (.outFull, consumed + 1, acc, ⟨false, true⟩)
            else if c = QUOTE then scanQuoted cap (acc ++ [QUOTE]) (consumed + 2) rest2
            else scanUnquoted cap (acc ++ [c]) (consumed + 2) rest2
      else if acc.length = cap then (.outFull, consumed, acc, ⟨false, true⟩)
      else scanQuoted cap (acc ++ [b]) (consumed + 1) rest

/-- One field read, after the CRLF skip: empty input yields the record's final
(empty) field when inside a record and `End` otherwise; a leading quote opens
a quoted field.  `base` counts input bytes already consumed by the skip. -/
def readFieldCore (s : RState) (base : Nat) (cap : Nat) :
    List Nat → FieldRes × Nat × List Nat × RState
  | [] =>
      if s.inRecord then (.fld true, base, [], ⟨false, false⟩)
      else (.eof, base, [], ⟨false, false⟩)
  | b :: rest =>
      if b = QUOTE then scanQuoted cap [] (base + 1) rest
      else scanUnquoted cap [] base (b :: rest)

/-- `csv_core::Reader::read_field` on the remaining input: first swallow the
`\n` of a `\r\n` pair left over from the previous field, then read one
field. -/
def readField (s : RState) (input : List Nat) (cap : Nat) :
    FieldRes × Nat × List Nat × RState :=
  match input, s.afterCR with
  | b :: rest, true =>
      if b = LF then readFieldCore ⟨false, s.inRecord⟩ 1 cap rest
      else readFieldCore ⟨false, s.inRecord⟩ 0 cap (b :: rest)
  | input, _ => readFieldCore ⟨false, s.inRecord⟩ 0 cap input

/-! ## The deserialization driver (`de.rs`) -/

/-- `de::Error`: all error kinds deserialization can return. -/
inductive DeErr where
  | overflow
  | expectedEmpty
  | invalidBool
  | invalidInt
  | invalidFloat
  | invalidUtf8Char
  | invalidUtf8String
  | custom
deriving DecidableEq, Repr

/-- Outcome of a deserialization step: returned value, returned error, or a
Rust panic (`unimplemented!`), which is not a return at all. -/
inductive DeRes (α : Type) where
  | ok (a : α)
  | err (e : DeErr)
  | panicked
deriving Repr

/-- `Deserializer` state: bytes consumed, latched record end, the optional
peeked field, and the csv_core reader's own state. -/
structure DState where
  nread : Nat
  recordEnd : Bool
  peeked : Option (List Nat)
  rs : RState
deriving Repr

/-- The driver's starting state for one `Reader::deserialize` call. -/
def initDState : DState := ⟨0, false, Option.none, ⟨false, false⟩⟩

/-- `Deserializer::read_bytes_impl`: one tokenizer call; `nread` advances by
the reported consumption unconditionally, `OutputFull` becomes `Overflow`,
a `Field` latches `record_end`, and the scratch contents are the field. -/
def readBytesImpl (input : List Nat) (cap : Nat) (s : DState) :
    DeRes (List Nat × DState) :=
  match readField s.rs (input.drop s.nread) cap with
  | (res, r, w, rs2) =>
    let s2 : DState := { s with nread := s.nread + r, rs := rs2 }
    match res with
    | .inputEmpty => .ok (w, s2)
    | .outFull => .err .overflow
    | .fld re => .ok (w, { s2 with recordEnd := re })
    | .eof => .ok (w, s2)

/-- `Deserializer::peek_bytes`: materialize the next field without consuming
it from the driver's point of view. -/
def peekBytes (input : List Nat) (cap : Nat) (s : DState) :
    DeRes (List Nat × DState) :=
  match s.peeked with
  | Option.some bs => .ok (bs, s)
  | Option.none =>
      match readBytesImpl input cap s with
      | .ok (w, s2) => .ok (w, { s2 with peeked := Option.some w })
      | .err e => .err e
      | .panicked => .panicked

/-- `Deserializer::read_bytes`: consume the peeked field if present, otherwise
read a fresh one. -/
def readBytes (input : List Nat) (cap : Nat) (s : DState) :
    DeRes (List Nat × DState) :=
  match s.peeked with
  | Option.some bs => .ok (bs, { s with peeked := Option.none })
  | Option.none => readBytesImpl input cap s

/-- Is this byte an ASCII decimal digit? -/
def isDigit (b : Nat) : Bool := 48 ≤ b && b ≤ 57

/-- Numeric value of a digit string (most significant first). -/
def digitsVal (ds : List Nat) : Nat := ds.foldl (fun acc d => 10 * acc + (d - 48)) 0

/-- The digit part of `atoi::atoi`: one or more digits making up the whole
slice, with the already-parsed sign applied and the target type's range
`[lo, hi]` enforced (checked arithmetic overflow = final value out of
range, since the accumulated magnitude grows monotonically). -/
def parseDigits (lo hi sgn : Int) (ds : List Nat) : Option Int :=
  if ds = [] then Option.none
  else if ds.all isDigit then
    let z : Int := sgn * (digitsVal ds : Int)
    if lo ≤ z ∧ z ≤ hi then Option.some z else Option.none
  else Option.none

/-- `atoi::atoi` as used by `Deserializer::read_int` for the integer type
with range `[lo, hi]`: an optional leading `+`/`-` sign, then digits. -/
def parseIntBounded (lo hi : Int) (f : List Nat) : Option Int :=
  match f with
  | [] => Option.none
  | b :: r =>
      if b = 43 then parseDigits lo hi 1 r
      else if b = 45 then parseDigits lo hi (-1) r
      else parseDigits lo hi 1 (b :: r)

/-- Decode one UTF-8 two-byte sequence after lead byte `b` in `0xC2..0xDF`. -/
def utf8Two (b : Nat) : List Nat → Option (Nat × List Nat)
  | b2 :: r2 =>
      if 0x80 ≤ b2 ∧ b2 ≤ 0xBF then
        Option.some ((b - 0xC0) * 64 + (b2 - 0x80), r2)
      else Option.none
  | [] => Option.none

/-- Decode one UTF-8 three-byte sequence after lead byte `b` in `0xE0..0xEF`;
band checks on the first continuation byte reject overlong forms (`0xE0`)
and surrogates (`0xED`). -/
def utf8Three (b : Nat) : List Nat → Option (Nat × List Nat)
  | b2 :: b3 :: r3 =>
      if ((b = 0xE0 ∧ 0xA0 ≤ b2 ∧ b2 ≤ 0xBF) ∨
          (b = 0xED ∧ 0x80 ≤ b2 ∧ b2 ≤ 0x9F) ∨
          (¬b = 0xE0 ∧ ¬b = 0xED ∧ 0x80 ≤ b2 ∧ b2 ≤ 0xBF)) ∧
         (0x80 ≤ b3 ∧ b3 ≤ 0xBF) then
        Option.some ((b - 0xE0) * 4096 + (b2 - 0x80) * 64 + (b3 - 0x80), r3)
      else Option.none
  | _ => Option.none

/-- Decode one UTF-8 four-byte sequence after lead byte `b` in `0xF0..0xF4`;
band checks reject overlong forms (`0xF0`) and values above `0x10FFFF`
(`0xF4`). -/
def utf8Four (b : Nat) : List Nat → Option (Nat × List Nat)
  | b2 :: b3 :: b4 :: r4 =>
      if ((b = 0xF0 ∧ 0x90 ≤ b2 ∧ b2 ≤ 0xBF) ∨
          (b = 0xF4 ∧ 0x80 ≤ b2 ∧ b2 ≤ 0x8F) ∨
          (¬b = 0xF0 ∧ ¬b = 0xF4 ∧ 0x80 ≤ b2 ∧ b2 ≤ 0xBF)) ∧
         (0x80 ≤ b3 ∧ b3 ≤ 0xBF) ∧ (0x80 ≤ b4 ∧ b4 ≤ 0xBF) then
        Option.some ((b - 0xF0) * 262144 + (b2 - 0x80) * 4096
          + (b3 - 0x80) * 64 + (b4 - 0x80), r4)
      else Option.none
  | _ => Option.none

/-- Decode one UTF-8 code point from the front of the byte list. -/
def utf8DecodeOne : List Nat → Option (Nat × List Nat)
  | [] => Option.none
  | b :: rest =>
      if b < 0x80 then Option.some (b, rest)
      else if 0xC2 ≤ b ∧ b ≤ 0xDF then utf8Two b rest
      else if 0xE0 ≤ b ∧ b ≤ 0xEF then utf8Three b rest
      else if 0xF0 ≤ b ∧ b ≤ 0xF4 then utf8Four b rest
      else Option.none

/-- Iterate `utf8DecodeOne`; every step consumes at least one byte, so fuel
equal to the list length (as supplied by `utf8Decode`) always suffices. -/
def utf8DecodeAux : Nat → List Nat → Option (List Nat)
  | _, [] => Option.some []
  | 0, _ :: _ => Option.none
  | fuel + 1, b :: rest =>
      (utf8DecodeOne (b :: rest)).bind
        (fun cr => (utf8DecodeAux fuel cr.2).map (cr.1 :: ·))

/-- Decode a byte list as UTF-8 into its code points, rejecting overlong
forms, surrogates, and values above `0x10FFFF` (Rust's
`core::str::from_utf8` followed by `str::chars`). -/
def utf8Decode (l : List Nat) : Option (List Nat) := utf8DecodeAux l.length l

/-! ### The type universe (deserialize side)

The serde type shapes `Reader::deserialize::<T>` can be driven by, as decided
by `T`'s `Deserialize` implementation hitting the hooks of `de.rs`:

* scalar leaves (`deserialize_bool`, `read_int` for each integer width
  modelled by its bounds, `deserialize_char`, `_str`, `_bytes`, `_unit`,
  `_unit_struct`);
* `option` (peek, empty field = `None`);
* `tuple` / `array` / `struct_` (all three hooks call `visitor.visit_seq`;
  the derived visitor demands exactly the listed element types and turns a
  premature end-of-record into a `Custom` error);
* `cenum`: a unit-only enum — the first field is matched against the variant
  name list (an unknown name is a `Custom` error from the derived
  identifier visitor), then `VariantAccess::unit_variant` succeeds;
* `cenumData`: an enum with data-carrying variants — after the variant name
  matches, `VariantAccess::{newtype,tuple,struct}_variant` is
  `unimplemented!`, i.e. a panic;
* `newtype`: `deserialize_newtype_struct` is `unimplemented!`, a panic;
* `any`: `deserialize_any` is `unimplemented!`, a panic;
* `map`: `deserialize_map` forwards to `visitor.visit_seq(self)`; a map
  type's visitor has no `visit_seq`, so serde's default rejects with an
  invalid-type error, surfacing as `Error::custom` = `Custom`. -/

mutual
inductive Ty where
  | bool
  | int (lo hi : Int)
  | char
  | str
  | bytes
  | unit
  | unitStruct (name : List Nat)
  | option (t : Ty)
  | tuple (ts : Tys)
  | array (ts : Tys)
  | struct_ (ts : Tys)
  | cenum (variants : List (List Nat))
  | cenumData (variants : List (List Nat))
  | newtype (t : Ty)
  | any
  | map

inductive Tys where
  | nil
  | cons (t : Ty) (ts : Tys)
end

mutual
/-- `T::deserialize(&mut deserializer)` for the type shape `t`. -/
def decodeTy (input : List Nat) (cap : Nat) : Ty → DState → DeRes (Value × DState)
  | .bool, s =>
      match readBytes input cap s with
      | .ok (f, s2) =>
          if f = trueBytes then .ok (.bool true, s2)
          else if f = falseBytes then .ok (.bool false, s2)
          else .err .invalidBool
      | .err e => .err e
      | .panicked => .panicked
  | .int lo hi, s =>
      match readBytes input cap s with
      | .ok (f, s2) =>
          match parseIntBounded lo hi f with
          | Option.some n => .ok (.int n, s2)
          | Option.none => .err .invalidInt
      | .err e => .err e
      | .panicked => .panicked
  | .char, s =>
      match readBytes input cap s with
      | .ok (f, s2) =>
          match utf8Decode f with
          | Option.none => .err .invalidUtf8String
          | Option.some [c] => .ok (.char c, s2)
          | Option.some _ => .err .invalidUtf8Char
      | .err e => .err e
      | .panicked => .panicked
  | .str, s =>
      match readBytes input cap s with
      | .ok (f, s2) =>
          match utf8Decode f with
          | Option.none => .err .invalidUtf8String
          | Option.some _ => .ok (.str f, s2)
      | .err e => .err e
      | .panicked => .panicked
  | .bytes, s =>
      match readBytes input cap s with
      | .ok (f, s2) => .ok (.bytes f, s2)
      | .err e => .err e
      | .panicked => .panicked
  | .unit, s =>
      match readBytes input cap s with
      | .ok (f, s2) => if f = [] then .ok (.unit, s2) else .err .expectedEmpty
      | .err e => .err e
      | .panicked => .panicked
  | .unitStruct name, s =>
      match readBytes input cap s with
      | .ok (f, s2) =>
          if f = [] then .ok (.unitStruct name, s2) else .err .expectedEmpty
      | .err e => .err e
      | .panicked => .panicked
  | .option t, s =>
      match peekBytes input cap s with
      | .ok (f, s2) =>
          if f = [] then .ok (.none, s2)
          else
            match decodeTy input cap t s2 with
            | .ok (v, s3) => .ok (.some v, s3)
            | .err e => .err e
            | .panicked => .panicked
      | .err e => .err e
      | .panicked => .panicked
  | .tuple ts, s =>
      match decodeTys input cap ts s with
      | .ok (vs, s2) => .ok (.tuple vs, s2)
      | .err e => .err e
      | .panicked => .panicked
  | .array ts, s =>
      match decodeTys input cap ts s with
      | .ok (vs, s2) => .ok (.array vs, s2)
      | .err e => .err e
      | .panicked => .panicked
  | .struct_ ts, s =>
      match decodeTys input cap ts s with
      | .ok (vs, s2) => .ok (.struct_ vs, s2)
      | .err e => .err e
      | .panicked => .panicked
  | .cenum variants, s =>
      match readBytes input cap s with
      | .ok (f, s2) =>
          if f ∈ variants then .ok (.unitVariant f, s2) else .err .custom
      | .err e => .err e
      | .panicked => .panicked
  | .cenumData variants, s =>
      match readBytes input cap s with
      | .ok (f, _) => if f ∈ variants then .panicked else .err .custom
      | .err e => .err e
      | .panicked => .panicked
  | .newtype _, _ => .panicked
  | .any, _ => .panicked
  | .map, _ => .err .custom

/-- The derived `visit_seq` body for a fixed-arity composite: request one
element per listed type; `SeqAccess::next_element_seed` answers `None` once
`record_end` is latched, which the visitor reports as a `Custom` error
(missing field / invalid length). -/
def decodeTys (input : List Nat) (cap : Nat) : Tys → DState → DeRes (Values × DState)
  | .nil, s => .ok (.nil, s)
  | .cons t ts, s =>
      if s.recordEnd then .err .custom
      else
        match decodeTy input cap t s with
        | .ok (v, s2) =>
            match decodeTys input cap ts s2 with
            | .ok (vs, s3) => .ok (.cons v vs, s3)
            | .err e => .err e
            | .panicked => .panicked
        | .err e => .err e
        | .panicked => .panicked
end

/-- `Reader::<cap>::deserialize::<t>(input)`: run the driver from a fresh
state and return the value with the number of bytes read. -/
def decodeTop (t : Ty) (cap : Nat) (input : List Nat) : DeRes (Value × Nat) :=
  match decodeTy input cap t initDState with
  | .ok (v, s) => .ok (v, s.nread)
  | .err e => .err e
  | .panicked => .panicked

/-! ### Serialize-side entry outcomes (for the panic claims)

`Writer::serialize` dispatches on the serde shape of the value; the shapes
below never reach field emission because their hook's body is
`unimplemented!` (`serialize_map`, `serialize_tuple_variant`,
`serialize_struct_variant`, `serialize_newtype_variant`, `collect_str`). -/

inductive SerInput where
  | plain (v : Value)
  | mapVal
  | tupleVariantVal
  | structVariantVal
  | newtypeVariantVal
  | collectStrVal

/-- Outcome of `Writer::serialize` (output buffer large enough): supported
shapes produce the record's bytes; the unsupported hooks panic. -/
def serializeOutcome : SerInput → DeRes (List Nat)
  | .plain v => .ok (serializeBytes v)
  | .mapVal => .panicked
  | .tupleVariantVal => .panicked
  | .structVariantVal => .panicked
  | .newtypeVariantVal => .panicked
  | .collectStrVal => .panicked

/-! ## Claim C2: nested composites flatten -/

/-- `i32` as its bounds. -/
def tyI32 : Ty := .int (-2147483648) 2147483647

/-- The aggregate `{a: (i32,i32), b: [i32;4], c: {x:i32, y:i32}}` with the
given eight leaves. -/
def c2Aggregate (x0 x1 x2 x3 x4 x5 x6 x7 : Int) : Value :=
  .struct_ (.cons (.tuple (.cons (.int x0) (.cons (.int x1) .nil)))
    (.cons (.array (.cons (.int x2) (.cons (.int x3)
      (.cons (.int x4) (.cons (.int x5) .nil)))))
    (.cons (.struct_ (.cons (.int x6) (.cons (.int x7) .nil))) .nil)))

/-- The flat tuple `(i32,i32,i32,i32,i32,i32,i32,i32)` with the same leaves. -/
def c2Flat (x0 x1 x2 x3 x4 x5 x6 x7 : Int) : Value :=
  .tuple (.cons (.int x0) (.cons (.int x1) (.cons (.int x2) (.cons (.int x3)
    (.cons (.int x4) (.cons (.int x5) (.cons (.int x6) (.cons (.int x7) .nil))))))))

/-- C2.  For the types `A=(i32,i32)`, `B=[i32;4]`, `C={x:i32,y:i32}`,
serializing the aggregate `{a:A, b:B, c:C}` produces exactly the same bytes
as serializing the flat eight-leaf tuple with the same leaves; with leaves
0..7 and the default configuration the output is the bytes
`0,1,2,3,4,5,6,7` followed by a line feed. -/
theorem c2_flattening :
    (∀ x0 x1 x2 x3 x4 x5 x6 x7 : Int,
      serializeBytes (c2Aggregate x0 x1 x2 x3 x4 x5 x6 x7) =
        serializeBytes (c2Flat x0 x1 x2 x3 x4 x5 x6 x7)) ∧
    serializeBytes (c2Aggregate 0 1 2 3 4 5 6 7) =
      [48, 44, 49, 44, 50, 44, 51, 44, 52, 44, 53, 44, 54, 44, 55, 10] := by
  constructor
  · intro x0 x1 x2 x3 x4 x5 x6 x7
    rfl
  · rfl

/-! ## Claim C4: delimiter and terminator counts -/

theorem delimCount_append (a b : List Tok) :
    delimCount (a ++ b) = delimCount a + delimCount b := by
  induction a with
  | nil => simp [delimCount]
  | cons t ts ih => cases t <;> simp [delimCount, ih] <;> omega

theorem termCount_append (a b : List Tok) :
    termCount (a ++ b) = termCount a + termCount b := by
  induction a with
  | nil => simp [termCount]
  | cons t ts ih => cases t <;> simp [termCount, ih] <;> omega

mutual
theorem termCount_serVal : ∀ v : Value, termCount (serVal v) = 0
  | .bool _ | .int _ | .char _ | .str _ | .bytes _ => rfl
  | .unit | .unitStruct _ | .unitVariant _ | .none => rfl
  | .some v | .newtype v => termCount_serVal v
  | .tuple vs | .array vs | .struct_ vs | .seq vs => termCount_serElems vs

theorem termCount_serElems : ∀ vs : Values, termCount (serElems vs) = 0
  | .nil => rfl
  | .cons v .nil => termCount_serVal v
  | .cons v (.cons w vs) => by
      show termCount (serVal v ++ .delim :: serElems (.cons w vs)) = 0
      rw [termCount_append, termCount_serVal v]
      have h := termCount_serElems (.cons w vs)
      simp [termCount, h]
end

mutual
theorem delim_leaf_serVal :
    ∀ v : Value, allNonEmpty v = true → delimCount (serVal v) + 1 = leafCount v
  | .bool _, _ | .int _, _ | .char _, _ | .str _, _ | .bytes _, _ => rfl
  | .unit, _ | .unitStruct _, _ | .unitVariant _, _ | .none, _ => rfl
  | .some v, h | .newtype v, h => delim_leaf_serVal v h
  | .tuple (.cons v vs), h | .array (.cons v vs), h
  | .struct_ (.cons v vs), h | .seq (.cons v vs), h => by
      have h' : allNonEmptyElems (.cons v vs) = true := by
        simpa [allNonEmpty] using h
      exact delim_leaf_serElems (.cons v vs) (fun hc => nomatch hc) h'

theorem delim_leaf_serElems :
    ∀ vs : Values, vs ≠ .nil → allNonEmptyElems vs = true →
      delimCount (serElems vs) + 1 = leafCountElems vs
  | .cons v .nil, _, h => by
      have hv : allNonEmpty v = true := by
        simpa [allNonEmptyElems] using h
      show delimCount (serVal v) + 1 = leafCount v + leafCountElems .nil
      rw [delim_leaf_serVal v hv]
      simp [leafCountElems]
  | .cons v (.cons w vs), _, h => by
      have hv : allNonEmpty v = true := by
        simp only [allNonEmptyElems, Bool.and_eq_true] at h
        exact h.1
      have hws : allNonEmptyElems (.cons w vs) = true := by
        simp only [allNonEmptyElems, Bool.and_eq_true] at h ⊢
        exact ⟨h.2.1, h.2.2⟩
      show delimCount (serVal v ++ .delim :: serElems (.cons w vs)) + 1 =
        leafCount v + leafCountElems (.cons w vs)
      rw [delimCount_append]
      have h1 := delim_leaf_serVal v hv
      have h2 := delim_leaf_serElems (.cons w vs) (fun hc => nomatch hc) hws
      have h3 : delimCount (Tok.delim :: serElems (.cons w vs)) =
          delimCount (serElems (.cons w vs)) + 1 := rfl
      omega
end

/-- The delimiter/leaf correspondence fails as soon as an empty compound
element appears: `Compound::element` counts elements, not leaves, so a
delimiter is emitted before the element following an empty sequence even
though that sequence contributed no field.  Witness value: `([], 5)`. -/
def c4EmptySeqPair : Value := .tuple (.cons (.seq .nil) (.cons (.int 5) .nil))

/-- C4 counterexample.  Serializing `([], 5)` (one scalar leaf) emits one
delimiter, not `1 - 1 = 0`: the output is `,5` followed by a line feed. -/
theorem c4_counterexample :
    delimCount (serTop c4EmptySeqPair) ≠ leafCount c4EmptySeqPair - 1 ∧
      serializeBytes c4EmptySeqPair = [44, 53, 10] := by
  constructor
  · decide
  · rfl

/-- C4 (amended).  For every value all of whose compound nodes are nonempty,
the emitted token stream contains exactly `k - 1` delimiters for `k` scalar
leaves, and exactly one record terminator (for every value whatsoever). -/
theorem c4_delimiter_discipline :
    ∀ v : Value, allNonEmpty v = true →
      delimCount (serTop v) = leafCount v - 1 ∧ termCount (serTop v) = 1 := by
  intro v h
  constructor
  · have h1 : delimCount (serVal v) + 1 = leafCount v := delim_leaf_serVal v h
    have h2 : delimCount (serTop v) = delimCount (serVal v) := by
      show delimCount (serVal v ++ [.term]) = _
      rw [delimCount_append]
      rfl
    omega
  · show termCount (serVal v ++ [.term]) = 1
    rw [termCount_append, termCount_serVal v]
    simp [termCount]

/-- C4 witness: the eight-leaf aggregate of C2 has seven delimiters and one
terminator. -/
theorem c4_witness :
    allNonEmpty (c2Aggregate 0 1 2 3 4 5 6 7) = true ∧
      delimCount (serTop (c2Aggregate 0 1 2 3 4 5 6 7)) =
        leafCount (c2Aggregate 0 1 2 3 4 5 6 7) - 1 ∧
      termCount (serTop (c2Aggregate 0 1 2 3 4 5 6 7)) = 1 :=
  ⟨rfl, c4_delimiter_discipline (c2Aggregate 0 1 2 3 4 5 6 7) rfl⟩

/-! ## Claim C6: newtype wrappers on decode -/

/-- C6 counterexample.  The claim says decoding a newtype struct delegates to
the wrapped type, so `Wrapper(bool)` should decode from `true` exactly as
`bool` does; instead `deserialize_newtype_struct` is `unimplemented!` and the
call panics. -/
theorem c6_counterexample :
    decodeTop (.newtype .bool) 4 trueBytes = .panicked ∧
      decodeTop .bool 4 trueBytes = .ok (.bool true, 4) :=
  ⟨rfl, rfl⟩

/-- C6 (amended).  Newtype wrappers are transparent on encode
(`serialize_newtype_struct` delegates to the wrapped value), but on decode
`deserialize_newtype_struct` panics with "not supported" for every input,
rather than delegating. -/
theorem c6_newtype_decode :
    (∀ v : Value, serVal (.newtype v) = serVal v) ∧
    (∀ (t : Ty) (input : List Nat) (cap : Nat) (s : DState),
      decodeTy input cap (.newtype t) s = .panicked) :=
  ⟨fun _ => rfl, fun _ _ _ _ => rfl⟩

/-! ## Claims C5 and C7: totality vs panics on unsupported shapes -/

mutual
/-- The deserialize-side type shapes whose hooks in `de.rs` are fully
implemented (no `unimplemented!` reachable). -/
def TySupported : Ty → Bool
  | .bool | .int _ _ | .char | .str | .bytes | .unit | .unitStruct _ => true
  | .option t => TySupported t
  | .tuple ts | .array ts | .struct_ ts => TysSupported ts
  | .cenum _ => true
  | .map => true
  | .cenumData _ | .newtype _ | .any => false

def TysSupported : Tys → Bool
  | .nil => true
  | .cons t ts => TySupported t && TysSupported ts
end

theorem readBytesImpl_not_panicked (input : List Nat) (cap : Nat) (s : DState) :
    readBytesImpl input cap s ≠ .panicked := by
  unfold readBytesImpl
  rcases readField s.rs (input.drop s.nread) cap with ⟨res, r, w, rs2⟩
  cases res <;> simp

theorem readBytes_not_panicked (input : List Nat) (cap : Nat) (s : DState) :
    readBytes input cap s ≠ .panicked := by
  unfold readBytes
  cases hp : s.peeked with
  | some bs => simp
  | none =>
      exact readBytesImpl_not_panicked input cap s

theorem peekBytes_not_panicked (input : List Nat) (cap : Nat) (s : DState) :
    peekBytes input cap s ≠ .panicked := by
  unfold peekBytes
  cases hp : s.peeked with
  | some bs => simp
  | none =>
      cases hr : readBytesImpl input cap s with
      | ok a => simp
      | err e => simp
      | panicked => exact absurd hr (readBytesImpl_not_panicked input cap s)

mutual
theorem decodeTy_no_panic :
    ∀ (t : Ty), TySupported t = true → ∀ (input : List Nat) (cap : Nat) (s : DState),
      decodeTy input cap t s ≠ .panicked
  | .bool, _, input, cap, s => by
      simp only [decodeTy]
      cases hr : readBytes input cap s with
      | ok a =>
          rcases a with ⟨f, s2⟩
          dsimp only
          split
          · simp
          · split <;> simp
      | err e => simp
      | panicked => exact absurd hr (readBytes_not_panicked input cap s)
  | .int lo hi, _, input, cap, s => by
      simp only [decodeTy]
      cases hr : readBytes input cap s with
      | ok a =>
          rcases a with ⟨f, s2⟩
          rcases hp : parseIntBounded lo hi f with _ | n <;> simp [hp]
      | err e => simp
      | panicked => exact absurd hr (readBytes_not_panicked input cap s)
  | .char, _, input, cap, s => by
      simp only [decodeTy]
      cases hr : readBytes input cap s with
      | ok a =>
          rcases a with ⟨f, s2⟩
          rcases hu : utf8Decode f with _ | ⟨_ | ⟨c, cs⟩⟩ <;> simp [hu]
          cases cs <;> simp
      | err e => simp
      | panicked => exact absurd hr (readBytes_not_panicked input cap s)
  | .str, _, input, cap, s => by
      simp only [decodeTy]
      cases hr : readBytes input cap s with
      | ok a =>
          rcases a with ⟨f, s2⟩
          cases hu : utf8Decode f <;> simp [hu]
      | err e => simp
      | panicked => exact absurd hr (readBytes_not_panicked input cap s)
  | .bytes, _, input, cap, s => by
      simp only [decodeTy]
      cases hr : readBytes input cap s with
      | ok a => rcases a with ⟨f, s2⟩; simp
      | err e => simp
      | panicked => exact absurd hr (readBytes_not_panicked input cap s)
  | .unit, _, input, cap, s => by
      simp only [decodeTy]
      cases hr : readBytes input cap s with
      | ok a =>
          rcases a with ⟨f, s2⟩
          by_cases hf : f = [] <;> simp [hf]
      | err e => simp
      | panicked => exact absurd hr (readBytes_not_panicked input cap s)
  | .unitStruct name, _, input, cap, s => by
      simp only [decodeTy]
      cases hr : readBytes input cap s with
      | ok a =>
          rcases a with ⟨f, s2⟩
          by_cases hf : f = [] <;> simp [hf]
      | err e => simp
      | panicked => exact absurd hr (readBytes_not_panicked input cap s)
  | .option t, h, input, cap, s => by
      have ht : TySupported t = true := by simpa [TySupported] using h
      simp only [decodeTy]
      cases hr : peekBytes input cap s with
      | ok a =>
          rcases a with ⟨f, s2⟩
          by_cases hf : f = []
          · simp [hf]
          · have hin := decodeTy_no_panic t ht input cap s2
            simp only [hf, if_neg hf]
            cases hd : decodeTy input cap t s2 with
            | ok a => rcases a with ⟨v, s3⟩; simp [hd]
            | err e => simp [hd]
            | panicked => exact absurd hd hin
      | err e => simp
      | panicked => exact absurd hr (peekBytes_not_panicked input cap s)
  | .tuple ts, h, input, cap, s => by
      have ht : TysSupported ts = true := by simpa [TySupported] using h
      have hin := decodeTys_no_panic ts ht input cap s
      simp only [decodeTy]
      cases hd : decodeTys input cap ts s with
      | ok a => rcases a with ⟨vs, s2⟩; simp [hd]
      | err e => simp [hd]
      | panicked => exact absurd hd hin
  | .array ts, h, input, cap, s => by
      have ht : TysSupported ts = true := by simpa [TySupported] using h
      have hin := decodeTys_no_panic ts ht input cap s
      simp only [decodeTy]
      cases hd : decodeTys input cap ts s with
      | ok a => rcases a with ⟨vs, s2⟩; simp [hd]
      | err e => simp [hd]
      | panicked => exact absurd hd hin
  | .struct_ ts, h, input, cap, s => by
      have ht : TysSupported ts = true := by simpa [TySupported] using h
      have hin := decodeTys_no_panic ts ht input cap s
      simp only [decodeTy]
      cases hd : decodeTys input cap ts s with
      | ok a => rcases a with ⟨vs, s2⟩; simp [hd]
      | err e => simp [hd]
      | panicked => exact absurd hd hin
  | .cenum variants, _, input, cap, s => by
      simp only [decodeTy]
      cases hr : readBytes input cap s with
      | ok a =>
          rcases a with ⟨f, s2⟩
          by_cases hf : f ∈ variants <;> simp [hf]
      | err e => simp
      | panicked => exact absurd hr (readBytes_not_panicked input cap s)
  | .map, _, input, cap, s => by
      simp [decodeTy]

theorem decodeTys_no_panic :
    ∀ (ts : Tys), TysSupported ts = true → ∀ (input : List Nat) (cap : Nat) (s : DState),
      decodeTys input cap ts s ≠ .panicked
  | .nil, _, input, cap, s => by simp [decodeTys]
  | .cons t ts, h, input, cap, s => by
      have ht : TySupported t = true := by
        simp only [TysSupported, Bool.and_eq_true] at h
        exact h.1
      have hts : TysSupported ts = true := by
        simp only [TysSupported, Bool.and_eq_true] at h
        exact h.2
      simp only [decodeTys]
      by_cases hre : s.recordEnd
      · simp [hre]
      · simp only [hre, if_neg hre]
        cases hd : decodeTy input cap t s with
        | ok a =>
            rcases a with ⟨v, s2⟩
            have hin := decodeTys_no_panic ts hts input cap s2
            cases he : decodeTys input cap ts s2 with
            | ok b => rcases b with ⟨vs, s3⟩; simp [hd, he]
            | err e => simp [hd, he]
            | panicked => exact absurd he hin
        | err e => simp [hd]
        | panicked => exact absurd hd (decodeTy_no_panic t ht input cap s)
end

/-- C5 counterexample.  The claim says every serialization and
deserialization step returns `Ok` or `Err` and never panics; but
`Serializer::serialize_map` and `Deserializer::deserialize_any` are
`unimplemented!`, which panics instead of returning. -/
theorem c5_counterexample :
    serializeOutcome .mapVal = .panicked ∧ decodeTop .any 0 [] = .panicked :=
  ⟨rfl, rfl⟩

/-- C5 (amended).  Deserialization of every fully-implemented type shape is a
total function that returns `Ok` or `Err` and never panics; serialization of
the supported value universe always returns bytes; but the unsupported
reflection hooks (`serialize_map`, `serialize_tuple_variant`,
`serialize_struct_variant`, `deserialize_any`, `deserialize_newtype_struct`,
data-carrying `VariantAccess` payloads) panic via `unimplemented!` instead of
returning an error. -/
theorem c5_totality :
    (∀ (t : Ty), TySupported t = true → ∀ (input : List Nat) (cap : Nat) (s : DState),
      decodeTy input cap t s ≠ .panicked) ∧
    (∀ v : Value, serializeOutcome (.plain v) = .ok (serializeBytes v)) ∧
    serializeOutcome .mapVal = .panicked ∧
    serializeOutcome .tupleVariantVal = .panicked ∧
    serializeOutcome .structVariantVal = .panicked ∧
    (∀ (input : List Nat) (cap : Nat) (s : DState),
      decodeTy input cap .any s = .panicked) ∧
    (∀ (t : Ty) (input : List Nat) (cap : Nat) (s : DState),
      decodeTy input cap (.newtype t) s = .panicked) :=
  ⟨decodeTy_no_panic, fun _ => rfl, rfl, rfl, rfl, fun _ _ _ => rfl, fun _ _ _ _ => rfl⟩

/-- C5 witness: the supported shape `bool` never panics, e.g. on empty
input. -/
theorem c5_witness :
    TySupported .bool = true ∧ decodeTy [] 0 .bool initDState ≠ .panicked :=
  ⟨rfl, c5_totality.1 .bool rfl [] 0 initDState⟩

/-- C7 counterexample.  The claim says deserializing a map-typed value
signals "unsupported shape" at `deserialize_map`; instead `deserialize_map`
forwards to `visitor.visit_seq(self)`, and for a map type the visitor's
default `visit_seq` rejects with an invalid-type error that surfaces as the
reflection-layer `Custom` error — not the `unimplemented!` panic by which
every other unsupported hook signals. -/
theorem c7_counterexample :
    decodeTop .map 4 [49, 44, 50] = .err .custom ∧
      (DeRes.err .custom : DeRes (Value × Nat)) ≠ .panicked :=
  ⟨rfl, fun h => nomatch h⟩

/-- C7 (amended).  The serialize-side hooks for maps and data-carrying
variants and the deserialize-side hooks for `any` and data-carrying variant
payloads all panic with "not supported" at their invocation site; but
`deserialize_map` instead forwards to the visitor as a sequence, which for a
map type yields the `Custom` error. -/
theorem c7_unsupported_hooks :
    serializeOutcome .mapVal = .panicked ∧
    serializeOutcome .tupleVariantVal = .panicked ∧
    serializeOutcome .structVariantVal = .panicked ∧
    serializeOutcome .newtypeVariantVal = .panicked ∧
    (∀ (input : List Nat) (cap : Nat) (s : DState),
      decodeTy input cap .any s = .panicked) ∧
    (∀ (variants : List (List Nat)) (input : List Nat) (cap : Nat)
        (s : DState) (f : List Nat) (s2 : DState),
      readBytes input cap s = .ok (f, s2) → f ∈ variants →
        decodeTy input cap (.cenumData variants) s = .panicked) ∧
    (∀ (input : List Nat) (cap : Nat) (s : DState),
      decodeTy input cap .map s = .err .custom) := by
  refine ⟨rfl, rfl, rfl, rfl, fun _ _ _ => rfl, ?_, fun _ _ _ => rfl⟩
  intro variants input cap s f s2 hread hmem
  simp only [decodeTy, hread, if_pos hmem]

/-- C7 witness: decoding the data-carrying enum `{A(..)}` from the record
`A,0,1` panics at the variant payload. -/
theorem c7_witness :
    readBytes [65, 44, 48, 44, 49] 16 initDState =
      .ok ([65], ⟨2, false, Option.none, ⟨false, true⟩⟩) ∧
    [65] ∈ [[65]] ∧
    decodeTy [65, 44, 48, 44, 49] 16 (.cenumData [[65]]) initDState = .panicked :=
  ⟨rfl, by simp,
    c7_unsupported_hooks.2.2.2.2.2.1 [[65]] [65, 44, 48, 44, 49] 16 initDState
      [65] ⟨2, false, Option.none, ⟨false, true⟩⟩ rfl (by simp)⟩

/-! ## Claim C8: `char` decoding -/

/-- C8 counterexample.  The claim says a field that is not valid UTF-8
decodes as `char` to `InvalidUtf8Char`; in the code `deserialize_char` first
goes through `read_str`, whose failure is `InvalidUtf8String`. -/
theorem c8_counterexample :
    decodeTop .char 1 [255] = .err .invalidUtf8String ∧
      DeErr.invalidUtf8String ≠ DeErr.invalidUtf8Char :=
  ⟨rfl, by decide⟩

/-- C8 (amended).  Given the bytes `f` of the acquired field: invalid UTF-8
yields `InvalidUtf8String`; valid UTF-8 with zero or at least two code points
yields `InvalidUtf8Char`; exactly one code point decodes to that code
point. -/
theorem c8_char_decoding :
    ∀ (input : List Nat) (cap : Nat) (s : DState) (f : List Nat) (s2 : DState),
      readBytes input cap s = .ok (f, s2) →
      (utf8Decode f = Option.none →
        decodeTy input cap .char s = .err .invalidUtf8String) ∧
      (utf8Decode f = Option.some [] →
        decodeTy input cap .char s = .err .invalidUtf8Char) ∧
      (∀ c, utf8Decode f = Option.some [c] →
        decodeTy input cap .char s = .ok (.char c, s2)) ∧
      (∀ c c' cs, utf8Decode f = Option.some (c :: c' :: cs) →
        decodeTy input cap .char s = .err .invalidUtf8Char) := by
  intro input cap s f s2 hread
  refine ⟨fun hu => ?_, fun hu => ?_, fun c hu => ?_, fun c c' cs hu => ?_⟩ <;>
    simp only [decodeTy, hread, hu]

/-- C8 witness: the two-byte field `ą` (U+0105) is exactly one code point and
decodes to it; concretely `Reader::<2>::deserialize::<char>` on those bytes
succeeds. -/
theorem c8_witness :
    decodeTy [196, 133] 2 .char initDState =
      .ok (.char 261, ⟨2, false, Option.none, ⟨false, true⟩⟩) :=
  (c8_char_decoding [196, 133] 2 initDState [196, 133]
    ⟨2, false, Option.none, ⟨false, true⟩⟩ rfl).2.2.1 261 rfl

/-! ## Claim C9: scratch overflow -/

theorem scanUnquoted_outFull :
    ∀ (f acc : List Nat) (c cap : Nat),
      (∀ b ∈ f, isSpecial b = false) → acc.length ≤ cap →
      cap < acc.length + f.length →
      ∃ r w rs2, scanUnquoted cap acc c f = (.outFull, r, w, rs2) := by
  intro f
  induction f with
  | nil => intro acc c cap _ hle hlt; simp at hlt; omega
  | cons b rest ih =>
      intro acc c cap hclean hle hlt
      have hb : isSpecial b = false := hclean b (by simp)
      have hb1 : ¬b = DELIM := by
        intro h; rw [h] at hb; simp [isSpecial] at hb
      have hb2 : ¬b = LF := by
        intro h; rw [h] at hb; simp [isSpecial] at hb
      have hb3 : ¬b = CR := by
        intro h; rw [h] at hb; simp [isSpecial] at hb
      by_cases hfull : acc.length = cap
      · exact ⟨c, acc, ⟨false, true⟩, by
          simp only [scanUnquoted, if_neg hb1, if_neg hb2, if_neg hb3, if_pos hfull]⟩
      · have hrec := ih (acc ++ [b]) (c + 1) cap
          (fun x hx => hclean x (by simp [hx])) (by simp; omega) (by simp at hlt ⊢; omega)
        obtain ⟨r, w, rs2, heq⟩ := hrec
        exact ⟨r, w, rs2, by
          simp only [scanUnquoted, if_neg hb1, if_neg hb2, if_neg hb3, if_neg hfull]
          exact heq⟩

/-- C9.  When the tokenizer reports its output buffer full — in particular
whenever an unquoted field is longer than the scratch capacity —
`Reader::deserialize` returns `Err(Overflow)`; concretely, deserializing
`bool` from the bytes `overflow` with capacity 3 returns `Overflow`. -/
theorem c9_overflow :
    (∀ (input : List Nat) (cap r : Nat) (w : List Nat) (rs2 : RState),
      readField ⟨false, false⟩ input cap = (.outFull, r, w, rs2) →
        decodeTop .bool cap input = .err .overflow) ∧
    (∀ (input : List Nat) (cap : Nat),
      (∀ b ∈ input, isSpecial b = false) → input ≠ [] → cap < input.length →
        decodeTop .bool cap input = .err .overflow) ∧
    decodeTop .bool 3 [111, 118, 101, 114, 102, 108, 111, 119] = .err .overflow := by
  have main : ∀ (input : List Nat) (cap r : Nat) (w : List Nat) (rs2 : RState),
      readField ⟨false, false⟩ input cap = (.outFull, r, w, rs2) →
        decodeTop .bool cap input = .err .overflow := by
    intro input cap r w rs2 h
    simp only [decodeTop, decodeTy, readBytes, initDState, readBytesImpl,
      List.drop_zero, h]
  refine ⟨main, ?_, rfl⟩
  intro input cap hclean hne hlt
  match input, hne with
  | b :: rest, _ =>
    have hb : isSpecial b = false := hclean b (by simp)
    have hbq : ¬b = QUOTE := by
      intro h; rw [h] at hb; simp [isSpecial] at hb
    have hsc := scanUnquoted_outFull (b :: rest) [] 0 cap hclean (by simp)
      (by simpa using hlt)
    obtain ⟨r, w, rs2, heq⟩ := hsc
    refine main (b :: rest) cap r w rs2 ?_
    simp only [readField, readFieldCore, if_neg hbq]
    exact heq

/-- C9 witness: on the bytes `overflow` with capacity 3 the tokenizer reports
`OutputFull` after three scratch bytes, and deserialization returns
`Overflow`. -/
theorem c9_witness :
    readField ⟨false, false⟩ [111, 118, 101, 114, 102, 108, 111, 119] 3 =
      (.outFull, 3, [111, 118, 101], ⟨false, true⟩) ∧
    decodeTop .bool 3 [111, 118, 101, 114, 102, 108, 111, 119] = .err .overflow :=
  ⟨rfl, c9_overflow.1 [111, 118, 101, 114, 102, 108, 111, 119] 3 3
    [111, 118, 101] ⟨false, true⟩ rfl⟩

/-! ## Reading back a written field

The workhorse lemmas: feeding the wire form of a field (as
`csv_core::Writer::field` produces it) followed by a delimiter or terminator
to `csv_core::Reader::read_field` recovers exactly the field's bytes and
consumes through the separator. -/

theorem isSpecial_false_elim {b : Nat} (h : isSpecial b = false) :
    ¬b = DELIM ∧ ¬b = QUOTE ∧ ¬b = LF ∧ ¬b = CR := by
  simp only [isSpecial, Bool.or_eq_false_iff, beq_eq_false_iff_ne, ne_eq] at h
  exact ⟨h.1.1.1, h.1.1.2, h.1.2, h.2⟩

theorem scanUnquoted_toDelim :
    ∀ (f acc : List Nat) (c cap : Nat) (rest : List Nat),
      (∀ b ∈ f, isSpecial b = false) → acc.length + f.length ≤ cap →
      scanUnquoted cap acc c (f ++ DELIM :: rest) =
        (.fld false, c + f.length + 1, acc ++ f, ⟨false, true⟩) := by
  intro f
  induction f with
  | nil =>
      intro acc c cap rest _ _
      simp [scanUnquoted]
  | cons b f' ih =>
      intro acc c cap rest hclean hcap
      obtain ⟨h1, _, h3, h4⟩ := isSpecial_false_elim (hclean b (by simp))
      have hfull : ¬acc.length = cap := by simp at hcap; omega
      show scanUnquoted cap acc c (b :: (f' ++ DELIM :: rest)) = _
      rw [scanUnquoted, if_neg h1, if_neg h3, if_neg h4, if_neg hfull]
      rw [ih (acc ++ [b]) (c + 1) cap rest
        (fun x hx => hclean x (by simp [hx])) (by simp at hcap ⊢; omega)]
      simp [List.append_assoc]
      all_goals omega

theorem scanUnquoted_toLF :
    ∀ (f acc : List Nat) (c cap : Nat) (rest : List Nat),
      (∀ b ∈ f, isSpecial b = false) → acc.length + f.length ≤ cap →
      scanUnquoted cap acc c (f ++ LF :: rest) =
        (.fld true, c + f.length + 1, acc ++ f, ⟨false, false⟩) := by
  intro f
  induction f with
  | nil =>
      intro acc c cap rest _ _
      simp [scanUnquoted, DELIM, LF]
  | cons b f' ih =>
      intro acc c cap rest hclean hcap
      obtain ⟨h1, _, h3, h4⟩ := isSpecial_false_elim (hclean b (by simp))
      have hfull : ¬acc.length = cap := by simp at hcap; omega
      show scanUnquoted cap acc c (b :: (f' ++ LF :: rest)) = _
      rw [scanUnquoted, if_neg h1, if_neg h3, if_neg h4, if_neg hfull]
      rw [ih (acc ++ [b]) (c + 1) cap rest
        (fun x hx => hclean x (by simp [hx])) (by simp at hcap ⊢; omega)]
      simp [List.append_assoc]
      all_goals omega

theorem scanQuoted_toDelim :
    ∀ (f acc : List Nat) (c cap : Nat) (rest : List Nat),
      acc.length + f.length ≤ cap →
      scanQuoted cap acc c (escQ f ++ QUOTE :: DELIM :: rest) =
        (.fld false, c + (escQ f).length + 2, acc ++ f, ⟨false, true⟩) := by
  intro f
  induction f with
  | nil =>
      intro acc c cap rest _
      simp [escQ, scanQuoted, QUOTE, DELIM]
  | cons b f' ih =>
      intro acc c cap rest hcap
      have hfull : ¬acc.length = cap := by simp at hcap; omega
      by_cases hb : b = QUOTE
      · subst hb
        have hesc : escQ (QUOTE :: f') ++ QUOTE :: DELIM :: rest =
            QUOTE :: QUOTE :: (escQ f' ++ QUOTE :: DELIM :: rest) := by
          simp [escQ]
        rw [hesc]
        have hstep : scanQuoted cap acc c
            (QUOTE :: QUOTE :: (escQ f' ++ QUOTE :: DELIM :: rest)) =
            scanQuoted cap (acc ++ [QUOTE]) (c + 2)
              (escQ f' ++ QUOTE :: DELIM :: rest) := by
          simp [scanQuoted, QUOTE, DELIM, LF, CR, hfull]
        rw [hstep, ih (acc ++ [QUOTE]) (c + 2) cap rest (by simp at hcap ⊢; omega)]
        simp [escQ, List.append_assoc, QUOTE]
        all_goals omega
      · have hesc : escQ (b :: f') ++ QUOTE :: DELIM :: rest =
            b :: (escQ f' ++ QUOTE :: DELIM :: rest) := by
          simp [escQ, hb]
        rw [hesc]
        rw [scanQuoted.eq_def]
        simp only []
        rw [if_neg hb, if_neg hfull]
        rw [ih (acc ++ [b]) (c + 1) cap rest (by simp at hcap ⊢; omega)]
        simp [escQ, hb, List.append_assoc]
        all_goals omega

theorem scanQuoted_toLF :
    ∀ (f acc : List Nat) (c cap : Nat) (rest : List Nat),
      acc.length + f.length ≤ cap →
      scanQuoted cap acc c (escQ f ++ QUOTE :: LF :: rest) =
        (.fld true, c + (escQ f).length + 2, acc ++ f, ⟨false, false⟩) := by
  intro f
  induction f with
  | nil =>
      intro acc c cap rest _
      simp [escQ, scanQuoted, QUOTE, DELIM, LF]
  | cons b f' ih =>
      intro acc c cap rest hcap
      have hfull : ¬acc.length = cap := by simp at hcap; omega
      by_cases hb : b = QUOTE
      · subst hb
        have hesc : escQ (QUOTE :: f') ++ QUOTE :: LF :: rest =
            QUOTE :: QUOTE :: (escQ f' ++ QUOTE :: LF :: rest) := by
          simp [escQ]
        rw [hesc]
        have hstep : scanQuoted cap acc c
            (QUOTE :: QUOTE :: (escQ f' ++ QUOTE :: LF :: rest)) =
            scanQuoted cap (acc ++ [QUOTE]) (c + 2)
              (escQ f' ++ QUOTE :: LF :: rest) := by
          simp [scanQuoted, QUOTE, DELIM, LF, CR, hfull]
        rw [hstep, ih (acc ++ [QUOTE]) (c + 2) cap rest (by simp at hcap ⊢; omega)]
        simp [escQ, List.append_assoc, QUOTE]
        all_goals omega
      · have hesc : escQ (b :: f') ++ QUOTE :: LF :: rest =
            b :: (escQ f' ++ QUOTE :: LF :: rest) := by
          simp [escQ, hb]
        rw [hesc]
        rw [scanQuoted.eq_def]
        simp only []
        rw [if_neg hb, if_neg hfull]
        rw [ih (acc ++ [b]) (c + 1) cap rest (by simp at hcap ⊢; omega)]
        simp [escQ, hb, List.append_assoc]
        all_goals omega

theorem readField_noCR (input : List Nat) (cap : Nat) (ir : Bool) :
    readField ⟨false, ir⟩ input cap = readFieldCore ⟨false, ir⟩ 0 cap input := by
  cases input <;> simp [readField]

theorem readField_writeField_delim (f rest : List Nat) (cap : Nat) (ir : Bool)
    (hcap : f.length ≤ cap) :
    readField ⟨false, ir⟩ (writeField f ++ DELIM :: rest) cap =
      (.fld false, (writeField f).length + 1, f, ⟨false, true⟩) := by
  rw [readField_noCR]
  by_cases hq : f.any isSpecial
  · have hw : writeField f = QUOTE :: escQ f ++ [QUOTE] := by
      simp [writeField, hq]
    rw [hw]
    have harr : (QUOTE :: escQ f ++ [QUOTE]) ++ DELIM :: rest =
        QUOTE :: (escQ f ++ QUOTE :: DELIM :: rest) := by
      simp
    rw [harr]
    have hcore : readFieldCore ⟨false, ir⟩ 0 cap
        (QUOTE :: (escQ f ++ QUOTE :: DELIM :: rest)) =
        scanQuoted cap [] 1 (escQ f ++ QUOTE :: DELIM :: rest) := by
      simp [readFieldCore]
    rw [hcore, scanQuoted_toDelim f [] 1 cap rest (by simpa using hcap)]
    simp
    omega
  · have hw : writeField f = f := by simp [writeField, hq]
    rw [hw]
    have hclean : ∀ b ∈ f, isSpecial b = false := by
      simpa [List.any_eq_true] using hq
    match f, hclean with
    | [], _ =>
        have hcore : readFieldCore ⟨false, ir⟩ 0 cap (DELIM :: rest) =
            scanUnquoted cap [] 0 (DELIM :: rest) := by
          simp [readFieldCore, DELIM, QUOTE]
        rw [List.nil_append, hcore]
        have := scanUnquoted_toDelim [] [] 0 cap rest (by simp) (by simp)
        simpa using this
    | b :: f', hclean =>
        obtain ⟨_, h2, _, _⟩ := isSpecial_false_elim (hclean b (by simp))
        have hcore : readFieldCore ⟨false, ir⟩ 0 cap (b :: (f' ++ DELIM :: rest)) =
            scanUnquoted cap [] 0 (b :: (f' ++ DELIM :: rest)) := by
          simp [readFieldCore, h2]
        rw [List.cons_append, hcore]
        have := scanUnquoted_toDelim (b :: f') [] 0 cap rest hclean
          (by simpa using hcap)
        simpa using this

theorem readField_writeField_term (f rest : List Nat) (cap : Nat) (ir : Bool)
    (hcap : f.length ≤ cap) :
    readField ⟨false, ir⟩ (writeField f ++ LF :: rest) cap =
      (.fld true, (writeField f).length + 1, f, ⟨false, false⟩) := by
  rw [readField_noCR]
  by_cases hq : f.any isSpecial
  · have hw : writeField f = QUOTE :: escQ f ++ [QUOTE] := by
      simp [writeField, hq]
    rw [hw]
    have harr : (QUOTE :: escQ f ++ [QUOTE]) ++ LF :: rest =
        QUOTE :: (escQ f ++ QUOTE :: LF :: rest) := by
      simp
    rw [harr]
    have hcore : readFieldCore ⟨false, ir⟩ 0 cap
        (QUOTE :: (escQ f ++ QUOTE :: LF :: rest)) =
        scanQuoted cap [] 1 (escQ f ++ QUOTE :: LF :: rest) := by
      simp [readFieldCore]
    rw [hcore, scanQuoted_toLF f [] 1 cap rest (by simpa using hcap)]
    simp
    omega
  · have hw : writeField f = f := by simp [writeField, hq]
    rw [hw]
    have hclean : ∀ b ∈ f, isSpecial b = false := by
      simpa [List.any_eq_true] using hq
    match f, hclean with
    | [], _ =>
        have hcore : readFieldCore ⟨false, ir⟩ 0 cap (LF :: rest) =
            scanUnquoted cap [] 0 (LF :: rest) := by
          simp [readFieldCore, LF, QUOTE]
        rw [List.nil_append, hcore]
        have := scanUnquoted_toLF [] [] 0 cap rest (by simp) (by simp)
        simpa using this
    | b :: f', hclean =>
        obtain ⟨_, h2, _, _⟩ := isSpecial_false_elim (hclean b (by simp))
        have hcore : readFieldCore ⟨false, ir⟩ 0 cap (b :: (f' ++ LF :: rest)) =
            scanUnquoted cap [] 0 (b :: (f' ++ LF :: rest)) := by
          simp [readFieldCore, h2]
        rw [List.cons_append, hcore]
        have := scanUnquoted_toLF (b :: f') [] 0 cap rest hclean
          (by simpa using hcap)
        simpa using this

/-- A field is rendered to nothing exactly when it is empty (an empty field
contains no special byte, so it is written unquoted). -/
theorem writeField_eq_nil_iff (f : List Nat) : writeField f = [] ↔ f = [] := by
  constructor
  · intro h
    by_cases hq : f.any isSpecial
    · simp [writeField, hq] at h
    · simpa [writeField, hq] using h
  · intro h
    simp [h, writeField]

/-- `read_bytes` on a written field followed by the record terminator:
recovers the field, consumes through the terminator, latches `record_end`. -/
theorem readBytes_writeField_term (input : List Nat) (cap : Nat) (s : DState)
    (f rest : List Nat) (hp : s.peeked = Option.none) (hcr : s.rs.afterCR = false)
    (hdrop : input.drop s.nread = writeField f ++ LF :: rest)
    (hcap : f.length ≤ cap) :
    readBytes input cap s =
      .ok (f, ⟨s.nread + ((writeField f).length + 1), true, Option.none,
        ⟨false, false⟩⟩) := by
  rcases s with ⟨n, re, pk, cr, ir⟩
  simp only at hp hcr hdrop
  subst hp
  subst hcr
  show readBytesImpl input cap _ = _
  unfold readBytesImpl
  simp only [hdrop]
  rw [readField_writeField_term f rest cap ir hcap]

/-- `read_bytes` on a written field followed by a delimiter: recovers the
field, consumes through the delimiter, leaves `record_end` unlatched. -/
theorem readBytes_writeField_delim (input : List Nat) (cap : Nat) (s : DState)
    (f rest : List Nat) (hp : s.peeked = Option.none) (hcr : s.rs.afterCR = false)
    (hre : s.recordEnd = false)
    (hdrop : input.drop s.nread = writeField f ++ DELIM :: rest)
    (hcap : f.length ≤ cap) :
    readBytes input cap s =
      .ok (f, ⟨s.nread + ((writeField f).length + 1), false, Option.none,
        ⟨false, true⟩⟩) := by
  rcases s with ⟨n, re, pk, cr, ir⟩
  simp only at hp hcr hdrop hre
  subst hp
  subst hcr
  subst hre
  show readBytesImpl input cap _ = _
  unfold readBytesImpl
  simp only [hdrop]
  rw [readField_writeField_delim f rest cap ir hcap]

/-! ## Claim C10: unit structs do not round-trip -/

/-- C10.  `serialize_unit_struct` emits one field holding the struct's name;
`deserialize_unit_struct` delegates to `deserialize_unit`, which rejects
every nonempty field with `ExpectedEmpty`; hence for every unit struct with a
nonempty name, deserializing the bytes serialization produced is rejected
with `ExpectedEmpty`. -/
theorem c10_unit_struct :
    (∀ name : List Nat, serVal (.unitStruct name) = [.fld name]) ∧
    (∀ (name input : List Nat) (cap : Nat) (s : DState) (f : List Nat) (s2 : DState),
      readBytes input cap s = .ok (f, s2) → f ≠ [] →
        decodeTy input cap (.unitStruct name) s = .err .expectedEmpty) ∧
    (∀ (name : List Nat) (cap : Nat), name ≠ [] → name.length ≤ cap →
      decodeTop (.unitStruct name) cap (serializeBytes (.unitStruct name)) =
        .err .expectedEmpty) := by
  refine ⟨fun _ => rfl, ?_, ?_⟩
  · intro name input cap s f s2 hread hne
    simp only [decodeTy, hread, if_neg hne]
  · intro name cap hne hcap
    have hser : serializeBytes (.unitStruct name) = writeField name ++ [LF] := by
      show renderToks [.fld name, .term] 0 = _
      have hwne : (writeField name).length ≠ 0 := by
        intro h
        exact hne ((writeField_eq_nil_iff name).mp (List.length_eq_zero.mp h))
      simp [renderToks, hwne]
    rw [hser]
    have hread := readBytes_writeField_term (writeField name ++ [LF]) cap initDState
      name [] rfl rfl (by simp [initDState]) hcap
    simp only [decodeTop, decodeTy, hread, if_neg hne]

/-- C10 witness: the unit struct named `S` serializes to `S` plus the
terminator, and deserializing that back is rejected with `ExpectedEmpty`. -/
theorem c10_witness :
    decodeTop (.unitStruct [83]) 1 (serializeBytes (.unitStruct [83])) =
      .err .expectedEmpty :=
  c10_unit_struct.2.2 [83] 1 (by simp) (by simp)

/-! ## Decimal formatting round-trips through the integer parser -/

theorem digitsVal_append (ds : List Nat) (d : Nat) :
    digitsVal (ds ++ [d]) = 10 * digitsVal ds + (d - 48) := by
  simp [digitsVal, List.foldl_append]

theorem natDecimalAux_spec :
    ∀ (fuel n : Nat), n < fuel →
      natDecimalAux fuel n ≠ [] ∧
      (∀ b ∈ natDecimalAux fuel n, 48 ≤ b ∧ b ≤ 57) ∧
      digitsVal (natDecimalAux fuel n) = n := by
  intro fuel
  induction fuel with
  | zero => intro n h; omega
  | succ fuel ih =>
      intro n h
      by_cases hn : n < 10
      · refine ⟨by simp [natDecimalAux, hn], ?_, ?_⟩
        · intro b hb
          simp [natDecimalAux, hn] at hb
          omega
        · simp [natDecimalAux, hn, digitsVal]
      · have hstep : natDecimalAux (fuel + 1) n =
            natDecimalAux fuel (n / 10) ++ [48 + n % 10] := by
          rw [natDecimalAux, if_neg hn]
        have hd : n / 10 < fuel := by omega
        obtain ⟨h1, h2, h3⟩ := ih (n / 10) hd
        rw [hstep]
        refine ⟨by simp, ?_, ?_⟩
        · intro b hb
          rcases List.mem_append.mp hb with hmem | hmem
          · exact h2 b hmem
          · simp at hmem; omega
        · rw [digitsVal_append, h3]
          omega

theorem natDecimal_spec (n : Nat) :
    natDecimal n ≠ [] ∧ (∀ b ∈ natDecimal n, 48 ≤ b ∧ b ≤ 57) ∧
      digitsVal (natDecimal n) = n :=
  natDecimalAux_spec (n + 1) n (by omega)

theorem intRepr_ne_nil (n : Int) : intRepr n ≠ [] := by
  unfold intRepr
  split
  · simp
  · exact (natDecimal_spec n.toNat).1

theorem parseDigits_natDecimal (lo hi sgn : Int) (m : Nat)
    (h1 : lo ≤ sgn * (m : Int)) (h2 : sgn * (m : Int) ≤ hi) :
    parseDigits lo hi sgn (natDecimal m) = Option.some (sgn * (m : Int)) := by
  obtain ⟨hne, hdig, hval⟩ := natDecimal_spec m
  have hall : (natDecimal m).all isDigit = true := by
    rw [List.all_eq_true]
    intro b hb
    have := hdig b hb
    simp [isDigit]
    omega
  rw [parseDigits, if_neg hne]
  simp only [hall, if_pos, hval]
  rw [if_pos ⟨h1, h2⟩]

theorem parseIntBounded_intRepr (lo hi n : Int) (h1 : lo ≤ n) (h2 : n ≤ hi) :
    parseIntBounded lo hi (intRepr n) = Option.some n := by
  by_cases hneg : n < 0
  · have hrepr : intRepr n = 45 :: natDecimal n.natAbs := by
      simp [intRepr, hneg]
    have habs : (-1 : Int) * (n.natAbs : Int) = n := by omega
    rw [hrepr]
    show parseIntBounded lo hi (45 :: natDecimal n.natAbs) = _
    rw [parseIntBounded, if_neg (by omega), if_pos rfl]
    rw [parseDigits_natDecimal lo hi (-1) n.natAbs (by omega) (by omega)]
    rw [habs]
  · have hrepr : intRepr n = natDecimal n.toNat := by
      simp [intRepr, hneg]
    have htn : (1 : Int) * (n.toNat : Int) = n := by omega
    rcases hd : natDecimal n.toNat with _ | ⟨b, bs⟩
    · exact absurd hd (natDecimal_spec n.toNat).1
    · have hb : 48 ≤ b ∧ b ≤ 57 := (natDecimal_spec n.toNat).2.1 b (by rw [hd]; simp)
      rw [hrepr, hd]
      show parseIntBounded lo hi (b :: bs) = _
      rw [parseIntBounded, if_neg (by omega), if_neg (by omega), ← hd]
      rw [parseDigits_natDecimal lo hi 1 n.toNat (by omega) (by omega)]
      rw [htn]

/-! ## UTF-8 encoding round-trips through the validator -/

theorem utf8EncodeChar_ne_nil (c : Nat) : utf8EncodeChar c ≠ [] := by
  unfold utf8EncodeChar
  split
  · simp
  · split
    · simp
    · split <;> simp

theorem utf8DecodeOne_encodeChar (c : Nat)
    (h : c < 0xD800 ∨ (0xE000 ≤ c ∧ c < 0x110000)) :
    utf8DecodeOne (utf8EncodeChar c) = Option.some (c, []) := by
  by_cases h1 : c < 0x80
  · have he : utf8EncodeChar c = [c] := by
      rw [utf8EncodeChar, if_pos h1]
    rw [he, utf8DecodeOne, if_pos h1]
  · by_cases h2 : c < 0x800
    · have he : utf8EncodeChar c = [0xC0 + c / 64, 0x80 + c % 64] := by
        rw [utf8EncodeChar, if_neg h1, if_pos h2]
      rw [he, utf8DecodeOne, if_neg (by omega), if_pos (by omega),
        utf8Two, if_pos (by omega)]
      simp only [Option.some.injEq, Prod.mk.injEq]
      exact ⟨by omega, trivial⟩
    · by_cases h3 : c < 0x10000
      · have he : utf8EncodeChar c =
            [0xE0 + c / 4096, 0x80 + c / 64 % 64, 0x80 + c % 64] := by
          rw [utf8EncodeChar, if_neg h1, if_neg h2, if_pos h3]
        rw [he, utf8DecodeOne, if_neg (by omega), if_neg (by omega),
          if_pos (by omega), utf8Three, if_pos (by omega)]
        simp only [Option.some.injEq, Prod.mk.injEq]
        exact ⟨by omega, trivial⟩
      · have he : utf8EncodeChar c =
            [0xF0 + c / 262144, 0x80 + c / 4096 % 64, 0x80 + c / 64 % 64,
              0x80 + c % 64] := by
          rw [utf8EncodeChar, if_neg h1, if_neg h2, if_neg h3]
        rw [he, utf8DecodeOne, if_neg (by omega), if_neg (by omega),
          if_neg (by omega), if_pos (by omega), utf8Four, if_pos (by omega)]
        simp only [Option.some.injEq, Prod.mk.injEq]
        exact ⟨by omega, trivial⟩

theorem utf8Decode_encodeChar (c : Nat)
    (h : c < 0xD800 ∨ (0xE000 ≤ c ∧ c < 0x110000)) :
    utf8Decode (utf8EncodeChar c) = Option.some [c] := by
  have hone := utf8DecodeOne_encodeChar c h
  rcases he : utf8EncodeChar c with _ | ⟨b, tl⟩
  · exact absurd he (utf8EncodeChar_ne_nil c)
  · rw [he] at hone
    unfold utf8Decode
    show utf8DecodeAux (tl.length + 1) (b :: tl) = _
    rw [utf8DecodeAux, hone]
    simp [utf8DecodeAux]

/-! ## Claim C1: the encode/decode round-trip

The round-trip universe is a typing relation pairing values with the type
shapes that decode back to them.  It contains the scalar leaves, `Some` over
scalar leaves with nonempty encodings, unit enum variants, and nonempty
fixed-arity composites.  Deliberately excluded (each fails round-trip on the
code): unit structs (see C10), `None`/`Some`-of-empty-encodings before later
fields (the peeked empty field leaks into the next read), empty composites,
and variable-length sequences in non-trailing position. -/

mutual
/-- The CSV fields (unescaped leaf bytes) a value serializes to, in order. -/
def fieldsOf : Value → List (List Nat)
  | .bool b => [if b then trueBytes else falseBytes]
  | .int n => [intRepr n]
  | .char c => [utf8EncodeChar c]
  | .str s => [s]
  | .bytes bs => [bs]
  | .unit => [[]]
  | .unitStruct name => [name]
  | .unitVariant name => [name]
  | .none => [[]]
  | .some v => fieldsOf v
  | .newtype v => fieldsOf v
  | .tuple vs | .array vs | .struct_ vs | .seq vs => fieldsElems vs

def fieldsElems : Values → List (List Nat)
  | .nil => []
  | .cons v vs => fieldsOf v ++ fieldsElems vs
end

/-- The token stream of a flat field list: fields separated by delimiters. -/
def fldToks : List (List Nat) → List Tok
  | [] => []
  | [f] => [.fld f]
  | f :: fs => .fld f :: .delim :: fldToks fs

/-- The wire bytes of a flat field list: written fields joined by the
delimiter byte. -/
def joinFields : List (List Nat) → List Nat
  | [] => []
  | [f] => writeField f
  | f :: fs => writeField f ++ DELIM :: joinFields fs

mutual
/-- The round-trip typing relation: `HasTy v t` pairs a value with a type
shape for which decode inverts encode. -/
inductive HasTy : Value → Ty → Prop where
  | bool (b : Bool) : HasTy (.bool b) .bool
  | int (n lo hi : Int) : lo ≤ n → n ≤ hi → HasTy (.int n) (.int lo hi)
  | char (c : Nat) : c < 0xD800 ∨ (0xE000 ≤ c ∧ c < 0x110000) →
      HasTy (.char c) .char
  | str (s cs : List Nat) : utf8Decode s = Option.some cs → HasTy (.str s) .str
  | bytes (bs : List Nat) : HasTy (.bytes bs) .bytes
  | unit : HasTy .unit .unit
  | unitVariant (name : List Nat) (variants : List (List Nat)) :
      name ∈ variants → HasTy (.unitVariant name) (.cenum variants)
  | someBool (b : Bool) : HasTy (.some (.bool b)) (.option .bool)
  | someInt (n lo hi : Int) : lo ≤ n → n ≤ hi →
      HasTy (.some (.int n)) (.option (.int lo hi))
  | someChar (c : Nat) : c < 0xD800 ∨ (0xE000 ≤ c ∧ c < 0x110000) →
      HasTy (.some (.char c)) (.option .char)
  | tuple (v : Value) (vs : Values) (t : Ty) (ts : Tys) :
      HasTys (.cons v vs) (.cons t ts) →
      HasTy (.tuple (.cons v vs)) (.tuple (.cons t ts))
  | array (v : Value) (vs : Values) (t : Ty) (ts : Tys) :
      HasTys (.cons v vs) (.cons t ts) →
      HasTy (.array (.cons v vs)) (.array (.cons t ts))
  | struct_ (v : Value) (vs : Values) (t : Ty) (ts : Tys) :
      HasTys (.cons v vs) (.cons t ts) →
      HasTy (.struct_ (.cons v vs)) (.struct_ (.cons t ts))

inductive HasTys : Values → Tys → Prop where
  | nil : HasTys .nil .nil
  | cons (v : Value) (vs : Values) (t : Ty) (ts : Tys) :
      HasTy v t → HasTys vs ts → HasTys (.cons v vs) (.cons t ts)
end

mutual
theorem fieldsOf_ne_nil : ∀ {v : Value} {t : Ty}, HasTy v t → fieldsOf v ≠ []
  | _, _, .bool b => by cases b <;> simp [fieldsOf]
  | _, _, .int n lo hi _ _ => by simp [fieldsOf]
  | _, _, .char c _ => by simp [fieldsOf]
  | _, _, .str s cs _ => by simp [fieldsOf]
  | _, _, .bytes bs => by simp [fieldsOf]
  | _, _, .unit => by simp [fieldsOf]
  | _, _, .unitVariant name variants _ => by simp [fieldsOf]
  | _, _, .someBool b => by cases b <;> simp [fieldsOf]
  | _, _, .someInt n lo hi _ _ => by simp [fieldsOf]
  | _, _, .someChar c _ => by simp [fieldsOf]
  | _, _, .tuple v vs t ts h =>
      match h with
      | .cons _ _ _ _ hv _ => by
          show fieldsOf v ++ fieldsElems vs ≠ []
          simp [fieldsOf_ne_nil hv]
  | _, _, .array v vs t ts h =>
      match h with
      | .cons _ _ _ _ hv _ => by
          show fieldsOf v ++ fieldsElems vs ≠ []
          simp [fieldsOf_ne_nil hv]
  | _, _, .struct_ v vs t ts h =>
      match h with
      | .cons _ _ _ _ hv _ => by
          show fieldsOf v ++ fieldsElems vs ≠ []
          simp [fieldsOf_ne_nil hv]
end

theorem fieldsElems_eq_nil : ∀ {vs : Values} {ts : Tys}, HasTys vs ts →
    fieldsElems vs = [] → vs = .nil
  | .nil, _, _, _ => rfl
  | .cons v vs, _, .cons _ _ _ _ hv _, h => by
      exfalso
      have : fieldsOf v ++ fieldsElems vs = [] := h
      exact fieldsOf_ne_nil hv (List.append_eq_nil.mp this).1

theorem fldToks_append :
    ∀ (a b : List (List Nat)), a ≠ [] → b ≠ [] →
      fldToks (a ++ b) = fldToks a ++ .delim :: fldToks b
  | [], _, ha, _ => absurd rfl ha
  | [f], b, _, hb => by
      match b with
      | g :: bs =>
          show fldToks (f :: g :: bs) = _
          rfl
  | f :: g :: fs, b, _, hb => by
      have ih := fldToks_append (g :: fs) b (by simp) hb
      show fldToks (f :: ((g :: fs) ++ b)) = _
      have h1 : (g :: fs) ++ b = g :: (fs ++ b) := rfl
      show Tok.fld f :: Tok.delim :: fldToks ((g :: fs) ++ b) = _
      rw [ih]
      rfl

theorem joinFields_append :
    ∀ (a b : List (List Nat)), a ≠ [] → b ≠ [] →
      joinFields (a ++ b) = joinFields a ++ DELIM :: joinFields b
  | [], _, ha, _ => absurd rfl ha
  | [f], b, _, hb => by
      match b with
      | g :: bs =>
          show joinFields (f :: g :: bs) = _
          rfl
  | f :: g :: fs, b, _, hb => by
      have ih := joinFields_append (g :: fs) b (by simp) hb
      show writeField f ++ DELIM :: joinFields ((g :: fs) ++ b) = _
      rw [ih]
      show _ = (writeField f ++ DELIM :: joinFields (g :: fs)) ++
        DELIM :: joinFields b
      simp

mutual
theorem serVal_eq_fldToks : ∀ {v : Value} {t : Ty}, HasTy v t →
    serVal v = fldToks (fieldsOf v)
  | _, _, .bool b => rfl
  | _, _, .int n lo hi _ _ => rfl
  | _, _, .char c _ => rfl
  | _, _, .str s cs _ => rfl
  | _, _, .bytes bs => rfl
  | _, _, .unit => rfl
  | _, _, .unitVariant name variants _ => rfl
  | _, _, .someBool b => rfl
  | _, _, .someInt n lo hi _ _ => rfl
  | _, _, .someChar c _ => rfl
  | _, _, .tuple v vs t ts h => serElems_eq_fldToks h
  | _, _, .array v vs t ts h => serElems_eq_fldToks h
  | _, _, .struct_ v vs t ts h => serElems_eq_fldToks h

theorem serElems_eq_fldToks : ∀ {vs : Values} {ts : Tys}, HasTys vs ts →
    serElems vs = fldToks (fieldsElems vs)
  | .nil, _, _ => rfl
  | .cons v .nil, _, .cons _ _ _ _ hv _ => by
      show serVal v = fldToks (fieldsOf v ++ [])
      rw [List.append_nil]
      exact serVal_eq_fldToks hv
  | .cons v (.cons w ws), _, .cons _ _ _ _ hv hvs => by
      match hvs with
      | .cons _ _ _ _ hw hws =>
          have hne1 : fieldsOf v ≠ [] := fieldsOf_ne_nil hv
          have hne2 : fieldsElems (.cons w ws) ≠ [] := by
            show fieldsOf w ++ fieldsElems ws ≠ []
            simp [fieldsOf_ne_nil hw]
          show serVal v ++ .delim :: serElems (.cons w ws) = _
          rw [serVal_eq_fldToks hv, serElems_eq_fldToks hvs]
          show _ = fldToks (fieldsOf v ++ fieldsElems (.cons w ws))
          rw [fldToks_append (fieldsOf v) (fieldsElems (.cons w ws)) hne1 hne2]
end

theorem renderToks_fldToks :
    ∀ (fs : List (List Nat)) (rb : Nat),
      renderToks (fldToks fs ++ [.term]) rb =
        joinFields fs ++
          (if rb + (joinFields fs).length = 0 then [QUOTE, QUOTE, LF] else [LF])
  | [], rb => by
      show renderToks [.term] rb = _
      simp [renderToks, joinFields]
  | [f], rb => by
      show renderToks [.fld f, .term] rb = _
      simp [renderToks, joinFields]
  | f :: g :: fs, rb => by
      have ih := renderToks_fldToks (g :: fs) (rb + (writeField f).length + 1)
      show renderToks (Tok.fld f :: Tok.delim :: (fldToks (g :: fs) ++ [.term])) rb = _
      show writeField f ++ DELIM ::
        renderToks (fldToks (g :: fs) ++ [.term]) (rb + (writeField f).length + 1) = _
      rw [ih]
      have hc1 : ¬rb + (writeField f).length + 1 +
          (joinFields (g :: fs)).length = 0 := by omega
      have hc2 : ¬rb + (joinFields (f :: g :: fs)).length = 0 := by
        show ¬rb + (writeField f ++ DELIM :: joinFields (g :: fs)).length = 0
        simp
      rw [if_neg hc1]
      show _ = (writeField f ++ DELIM :: joinFields (g :: fs)) ++ _
      rw [if_neg hc2]
      simp

/-- The record bytes `Writer::serialize` produces for a round-trippable
value: the joined fields, then the terminator (preceded by `""` when the
record would otherwise be empty). -/
theorem serializeBytes_eq_join {v : Value} {t : Ty} (h : HasTy v t) :
    serializeBytes v = joinFields (fieldsOf v) ++
      (if (joinFields (fieldsOf v)).length = 0 then [QUOTE, QUOTE, LF]
       else [LF]) := by
  show renderToks (serVal v ++ [.term]) 0 = _
  rw [serVal_eq_fldToks h, renderToks_fldToks (fieldsOf v) 0]
  simp

theorem joinFields_eq_nil :
    ∀ fs : List (List Nat), joinFields fs = [] → fs = [] ∨ fs = [[]]
  | [], _ => Or.inl rfl
  | [f], h => by
      right
      have : writeField f = [] := h
      rw [(writeField_eq_nil_iff f).mp this]
  | f :: g :: fs, h => by
      exfalso
      have : writeField f ++ DELIM :: joinFields (g :: fs) = [] := h
      simp at this

theorem drop_through (input A B : List Nat) (n d' : Nat)
    (h : input.drop n = A ++ d' :: B) :
    input.drop (n + (A.length + 1)) = B := by
  have h1 : input.drop (n + (A.length + 1)) =
      (input.drop n).drop (A.length + 1) := by
    rw [List.drop_drop]
    try (congr 1; omega)
  rw [h1, h]
  have h2 : A ++ d' :: B = (A ++ [d']) ++ B := by simp
  rw [h2]
  have h3 : (A ++ [d']).length = A.length + 1 := by simp
  rw [← h3, List.drop_left]

/-- `record_end` after consuming a separator byte: latched by the
terminator, not by a delimiter. -/
def sepRecEnd (d : Nat) : Bool := decide (d = LF)

/-- The csv_core reader state after consuming a separator byte. -/
def sepRState (d : Nat) : RState := ⟨false, decide (d = DELIM)⟩

theorem readBytes_peeked (input : List Nat) (cap : Nat) (s : DState)
    (bs : List Nat) (h : s.peeked = Option.some bs) :
    readBytes input cap s = .ok (bs, { s with peeked := Option.none }) := by
  simp [readBytes, h]

theorem peekBytes_of_readBytes (input : List Nat) (cap : Nat) (s : DState)
    (f : List Nat) (s2 : DState) (hp : s.peeked = Option.none)
    (h : readBytes input cap s = .ok (f, s2)) :
    peekBytes input cap s = .ok (f, { s2 with peeked := Option.some f }) := by
  simp only [readBytes, hp] at h
  simp only [peekBytes, hp, h]

/-- `read_bytes` on a lone-empty-field record written as `""` followed by
the terminator. -/
theorem readBytes_quotedEmpty_term (input : List Nat) (cap : Nat) (s : DState)
    (rest : List Nat) (hp : s.peeked = Option.none) (hcr : s.rs.afterCR = false)
    (hdrop : input.drop s.nread = QUOTE :: QUOTE :: LF :: rest) :
    readBytes input cap s =
      .ok ([], ⟨s.nread + 3, true, Option.none, ⟨false, false⟩⟩) := by
  rcases s with ⟨n, re, pk, cr, ir⟩
  simp only at hp hcr hdrop
  subst hp
  subst hcr
  show readBytesImpl input cap _ = _
  unfold readBytesImpl
  simp only [hdrop]
  rw [readField_noCR]
  have hcore : readFieldCore ⟨false, ir⟩ 0 cap (QUOTE :: QUOTE :: LF :: rest) =
      scanQuoted cap [] 1 (QUOTE :: LF :: rest) := by
    simp [readFieldCore]
  rw [hcore]
  have := scanQuoted_toLF [] [] 1 cap rest (by simp)
  simp only [escQ, List.nil_append] at this
  rw [this]
  simp

/-- `read_bytes` on an empty field written as `""` followed by a
delimiter. -/
theorem readBytes_quotedEmpty_delim (input : List Nat) (cap : Nat) (s : DState)
    (rest : List Nat) (hp : s.peeked = Option.none) (hcr : s.rs.afterCR = false)
    (hdrop : input.drop s.nread = QUOTE :: QUOTE :: DELIM :: rest) :
    readBytes input cap s =
      .ok ([], ⟨s.nread + 3, false, Option.none, ⟨false, true⟩⟩) := by
  rcases s with ⟨n, re, pk, cr, ir⟩
  simp only at hp hcr hdrop
  subst hp
  subst hcr
  show readBytesImpl input cap _ = _
  unfold readBytesImpl
  simp only [hdrop]
  rw [readField_noCR]
  have hcore : readFieldCore ⟨false, ir⟩ 0 cap (QUOTE :: QUOTE :: DELIM :: rest) =
      scanQuoted cap [] 1 (QUOTE :: DELIM :: rest) := by
    simp [readFieldCore]
  rw [hcore]
  have := scanQuoted_toDelim [] [] 1 cap rest (by simp)
  simp only [escQ, List.nil_append] at this
  rw [this]
  simp

/-! ### Decoding one leaf from an acquired field -/

theorem decode_bool_ok (input : List Nat) (cap : Nat) (s s2 : DState) (b : Bool)
    (hread : readBytes input cap s =
      .ok ((if b then trueBytes else falseBytes), s2)) :
    decodeTy input cap .bool s = .ok (.bool b, s2) := by
  cases b <;> simp [decodeTy, hread, trueBytes, falseBytes]

theorem decode_int_ok (input : List Nat) (cap : Nat) (s s2 : DState)
    (lo hi n : Int) (h1 : lo ≤ n) (h2 : n ≤ hi)
    (hread : readBytes input cap s = .ok (intRepr n, s2)) :
    decodeTy input cap (.int lo hi) s = .ok (.int n, s2) := by
  simp only [decodeTy, hread, parseIntBounded_intRepr lo hi n h1 h2]

theorem decode_char_ok (input : List Nat) (cap : Nat) (s s2 : DState) (c : Nat)
    (hsc : c < 0xD800 ∨ (0xE000 ≤ c ∧ c < 0x110000))
    (hread : readBytes input cap s = .ok (utf8EncodeChar c, s2)) :
    decodeTy input cap .char s = .ok (.char c, s2) := by
  simp only [decodeTy, hread, utf8Decode_encodeChar c hsc]

theorem decode_str_ok (input : List Nat) (cap : Nat) (s s2 : DState)
    (s' cs : List Nat) (hu : utf8Decode s' = Option.some cs)
    (hread : readBytes input cap s = .ok (s', s2)) :
    decodeTy input cap .str s = .ok (.str s', s2) := by
  simp only [decodeTy, hread, hu]

theorem decode_bytes_ok (input : List Nat) (cap : Nat) (s s2 : DState)
    (bs : List Nat) (hread : readBytes input cap s = .ok (bs, s2)) :
    decodeTy input cap .bytes s = .ok (.bytes bs, s2) := by
  simp only [decodeTy, hread]

theorem decode_unit_ok (input : List Nat) (cap : Nat) (s s2 : DState)
    (hread : readBytes input cap s = .ok ([], s2)) :
    decodeTy input cap .unit s = .ok (.unit, s2) := by
  simp [decodeTy, hread]

theorem decode_cenum_ok (input : List Nat) (cap : Nat) (s s2 : DState)
    (name : List Nat) (variants : List (List Nat)) (hmem : name ∈ variants)
    (hread : readBytes input cap s = .ok (name, s2)) :
    decodeTy input cap (.cenum variants) s = .ok (.unitVariant name, s2) := by
  simp only [decodeTy, hread, if_pos hmem]

/-- Decoding `Some(x)` for a leaf payload: the option hook peeks the field
(which materializes and consumes it), sees it nonempty, and the payload's
decode then reads the same buffered bytes. -/
theorem decode_option_some_ok (input : List Nat) (cap : Nat) (st s2 : DState)
    (tIn : Ty) (vIn : Value) (F : List Nat)
    (hp : st.peeked = Option.none)
    (hread : readBytes input cap st = .ok (F, s2))
    (hne : F ≠ [])
    (hinner : decodeTy input cap tIn { s2 with peeked := Option.some F } =
      .ok (vIn, { s2 with peeked := Option.none })) :
    decodeTy input cap (.option tIn) st =
      .ok (.some vIn, { s2 with peeked := Option.none }) := by
  have hpeek := peekBytes_of_readBytes input cap st F s2 hp hread
  simp only [decodeTy, hpeek, if_neg hne, hinner]

/-! ### The central decode induction

Decoding a round-trippable value from input whose remainder holds its joined
written fields followed by a separator (`,` for a following sibling field,
`\n` for the record terminator) succeeds, returns exactly the value, and
consumes through the separator. -/

mutual
theorem decodeTy_roundtrip : ∀ {v : Value} {t : Ty}, HasTy v t →
    ∀ (input : List Nat) (cap : Nat) (st : DState) (d : Nat) (rest : List Nat),
      (d = DELIM ∨ d = LF) → st.peeked = Option.none →
      st.recordEnd = false → st.rs.afterCR = false →
      input.drop st.nread = joinFields (fieldsOf v) ++ d :: rest →
      (∀ f ∈ fieldsOf v, f.length ≤ cap) →
      decodeTy input cap t st =
        .ok (v, ⟨st.nread + ((joinFields (fieldsOf v)).length + 1),
          sepRecEnd d, Option.none, sepRState d⟩)
  | _, _, .bool b => by
      intro input cap st d rest hd hp hre hcr hdrop hcap
      have hcap' : (if b then trueBytes else falseBytes).length ≤ cap :=
        hcap _ (by simp [fieldsOf])
      rcases hd with rfl | rfl
      · exact decode_bool_ok input cap st _ b
          (readBytes_writeField_delim input cap st _ rest hp hcr hre hdrop hcap')
      · exact decode_bool_ok input cap st _ b
          (readBytes_writeField_term input cap st _ rest hp hcr hdrop hcap')
  | _, _, .int n lo hi h1 h2 => by
      intro input cap st d rest hd hp hre hcr hdrop hcap
      have hcap' : (intRepr n).length ≤ cap := hcap _ (by simp [fieldsOf])
      rcases hd with rfl | rfl
      · exact decode_int_ok input cap st _ lo hi n h1 h2
          (readBytes_writeField_delim input cap st _ rest hp hcr hre hdrop hcap')
      · exact decode_int_ok input cap st _ lo hi n h1 h2
          (readBytes_writeField_term input cap st _ rest hp hcr hdrop hcap')
  | _, _, .char c hsc => by
      intro input cap st d rest hd hp hre hcr hdrop hcap
      have hcap' : (utf8EncodeChar c).length ≤ cap := hcap _ (by simp [fieldsOf])
      rcases hd with rfl | rfl
      · exact decode_char_ok input cap st _ c hsc
          (readBytes_writeField_delim input cap st _ rest hp hcr hre hdrop hcap')
      · exact decode_char_ok input cap st _ c hsc
          (readBytes_writeField_term input cap st _ rest hp hcr hdrop hcap')
  | _, _, .str sb cs hu => by
      intro input cap st d rest hd hp hre hcr hdrop hcap
      have hcap' : sb.length ≤ cap := hcap _ (by simp [fieldsOf])
      rcases hd with rfl | rfl
      · exact decode_str_ok input cap st _ sb cs hu
          (readBytes_writeField_delim input cap st _ rest hp hcr hre hdrop hcap')
      · exact decode_str_ok input cap st _ sb cs hu
          (readBytes_writeField_term input cap st _ rest hp hcr hdrop hcap')
  | _, _, .bytes bs => by
      intro input cap st d rest hd hp hre hcr hdrop hcap
      have hcap' : bs.length ≤ cap := hcap _ (by simp [fieldsOf])
      rcases hd with rfl | rfl
      · exact decode_bytes_ok input cap st _ bs
          (readBytes_writeField_delim input cap st _ rest hp hcr hre hdrop hcap')
      · exact decode_bytes_ok input cap st _ bs
          (readBytes_writeField_term input cap st _ rest hp hcr hdrop hcap')
  | _, _, .unit => by
      intro input cap st d rest hd hp hre hcr hdrop hcap
      rcases hd with rfl | rfl
      · exact decode_unit_ok input cap st _
          (readBytes_writeField_delim input cap st [] rest hp hcr hre hdrop
            (by simp))
      · exact decode_unit_ok input cap st _
          (readBytes_writeField_term input cap st [] rest hp hcr hdrop (by simp))
  | _, _, .unitVariant name variants hmem => by
      intro input cap st d rest hd hp hre hcr hdrop hcap
      have hcap' : name.length ≤ cap := hcap _ (by simp [fieldsOf])
      rcases hd with rfl | rfl
      · exact decode_cenum_ok input cap st _ name variants hmem
          (readBytes_writeField_delim input cap st _ rest hp hcr hre hdrop hcap')
      · exact decode_cenum_ok input cap st _ name variants hmem
          (readBytes_writeField_term input cap st _ rest hp hcr hdrop hcap')
  | _, _, .someBool b => by
      intro input cap st d rest hd hp hre hcr hdrop hcap
      have hcap' : (if b then trueBytes else falseBytes).length ≤ cap :=
        hcap _ (by simp [fieldsOf])
      have hne : (if b then trueBytes else falseBytes) ≠ [] := by
        cases b <;> simp [trueBytes, falseBytes]
      rcases hd with rfl | rfl
      · exact decode_option_some_ok input cap st _ _ _ _ hp
          (readBytes_writeField_delim input cap st _ rest hp hcr hre hdrop hcap')
          hne (decode_bool_ok input cap _ _ b (readBytes_peeked input cap _ _ rfl))
      · exact decode_option_some_ok input cap st _ _ _ _ hp
          (readBytes_writeField_term input cap st _ rest hp hcr hdrop hcap')
          hne (decode_bool_ok input cap _ _ b (readBytes_peeked input cap _ _ rfl))
  | _, _, .someInt n lo hi h1 h2 => by
      intro input cap st d rest hd hp hre hcr hdrop hcap
      have hcap' : (intRepr n).length ≤ cap := hcap _ (by simp [fieldsOf])
      have hne : intRepr n ≠ [] := intRepr_ne_nil n
      rcases hd with rfl | rfl
      · exact decode_option_some_ok input cap st _ _ _ _ hp
          (readBytes_writeField_delim input cap st _ rest hp hcr hre hdrop hcap')
          hne (decode_int_ok input cap _ _ lo hi n h1 h2
            (readBytes_peeked input cap _ _ rfl))
      · exact decode_option_some_ok input cap st _ _ _ _ hp
          (readBytes_writeField_term input cap st _ rest hp hcr hdrop hcap')
          hne (decode_int_ok input cap _ _ lo hi n h1 h2
            (readBytes_peeked input cap _ _ rfl))
  | _, _, .someChar c hsc => by
      intro input cap st d rest hd hp hre hcr hdrop hcap
      have hcap' : (utf8EncodeChar c).length ≤ cap := hcap _ (by simp [fieldsOf])
      have hne : utf8EncodeChar c ≠ [] := utf8EncodeChar_ne_nil c
      rcases hd with rfl | rfl
      · exact decode_option_some_ok input cap st _ _ _ _ hp
          (readBytes_writeField_delim input cap st _ rest hp hcr hre hdrop hcap')
          hne (decode_char_ok input cap _ _ c hsc
            (readBytes_peeked input cap _ _ rfl))
      · exact decode_option_some_ok input cap st _ _ _ _ hp
          (readBytes_writeField_term input cap st _ rest hp hcr hdrop hcap')
          hne (decode_char_ok input cap _ _ c hsc
            (readBytes_peeked input cap _ _ rfl))
  | _, _, .tuple v vs t ts h => by
      intro input cap st d rest hd hp hre hcr hdrop hcap
      have hres := decodeTys_roundtrip h (fun hc => nomatch hc)
        input cap st d rest hd hp hre hcr hdrop hcap
      simp only [decodeTy, hres]
      rfl
  | _, _, .array v vs t ts h => by
      intro input cap st d rest hd hp hre hcr hdrop hcap
      have hres := decodeTys_roundtrip h (fun hc => nomatch hc)
        input cap st d rest hd hp hre hcr hdrop hcap
      simp only [decodeTy, hres]
      rfl
  | _, _, .struct_ v vs t ts h => by
      intro input cap st d rest hd hp hre hcr hdrop hcap
      have hres := decodeTys_roundtrip h (fun hc => nomatch hc)
        input cap st d rest hd hp hre hcr hdrop hcap
      simp only [decodeTy, hres]
      rfl

theorem decodeTys_roundtrip : ∀ {vs : Values} {ts : Tys}, HasTys vs ts →
    vs ≠ .nil →
    ∀ (input : List Nat) (cap : Nat) (st : DState) (d : Nat) (rest : List Nat),
      (d = DELIM ∨ d = LF) → st.peeked = Option.none →
      st.recordEnd = false → st.rs.afterCR = false →
      input.drop st.nread = joinFields (fieldsElems vs) ++ d :: rest →
      (∀ f ∈ fieldsElems vs, f.length ≤ cap) →
      decodeTys input cap ts st =
        .ok (vs, ⟨st.nread + ((joinFields (fieldsElems vs)).length + 1),
          sepRecEnd d, Option.none, sepRState d⟩)
  | _, _, .nil, hne => absurd rfl hne
  | _, _, .cons v .nil t ts hv hrest, _ => by
      intro input cap st d rest hd hp hre hcr hdrop hcap
      match hrest with
      | .nil =>
          have hfe : fieldsElems (.cons v .nil) = fieldsOf v := by
            show fieldsOf v ++ [] = _
            simp
          rw [hfe] at hdrop hcap ⊢
          have hone := decodeTy_roundtrip hv input cap st d rest hd hp hre hcr
            hdrop hcap
          simp only [decodeTys, if_neg (by simp [hre] : ¬st.recordEnd = true),
            hone]
  | _, _, .cons v (.cons w ws) t ts hv hrest, _ => by
      intro input cap st d rest hd hp hre hcr hdrop hcap
      have hA : fieldsOf v ≠ [] := fieldsOf_ne_nil hv
      have hB : fieldsElems (.cons w ws) ≠ [] := by
        match hrest with
        | .cons _ _ _ _ hw _ =>
            show fieldsOf w ++ fieldsElems ws ≠ []
            simp [fieldsOf_ne_nil hw]
      have hsplit : joinFields (fieldsElems (.cons v (.cons w ws))) =
          joinFields (fieldsOf v) ++ DELIM ::
            joinFields (fieldsElems (.cons w ws)) := by
        show joinFields (fieldsOf v ++ fieldsElems (.cons w ws)) = _
        exact joinFields_append _ _ hA hB
      have hdrop1 : input.drop st.nread = joinFields (fieldsOf v) ++
          DELIM :: (joinFields (fieldsElems (.cons w ws)) ++ d :: rest) := by
        rw [hdrop, hsplit]
        simp
      have hcapA : ∀ f ∈ fieldsOf v, f.length ≤ cap := by
        intro f hf
        exact hcap f (by show f ∈ fieldsOf v ++ _; simp [hf])
      have hcapB : ∀ f ∈ fieldsElems (.cons w ws), f.length ≤ cap := by
        intro f hf
        exact hcap f (by show f ∈ fieldsOf v ++ _; simp [hf])
      have h1 := decodeTy_roundtrip hv input cap st DELIM
        (joinFields (fieldsElems (.cons w ws)) ++ d :: rest) (Or.inl rfl)
        hp hre hcr hdrop1 hcapA
      have hdrop2 := drop_through input (joinFields (fieldsOf v))
        (joinFields (fieldsElems (.cons w ws)) ++ d :: rest) st.nread DELIM
        hdrop1
      have h2 := decodeTys_roundtrip hrest (fun hc => nomatch hc) input cap
        ⟨st.nread + ((joinFields (fieldsOf v)).length + 1), sepRecEnd DELIM,
          Option.none, sepRState DELIM⟩ d rest hd rfl rfl rfl hdrop2 hcapB
      have hlen : (joinFields (fieldsElems (.cons v (.cons w ws)))).length =
          (joinFields (fieldsOf v)).length + 1 +
            (joinFields (fieldsElems (.cons w ws))).length := by
        rw [hsplit, List.length_append, List.length_cons]
        omega
      simp only [decodeTys, if_neg (by simp [hre] : ¬st.recordEnd = true),
        h1, h2, DeRes.ok.injEq, Prod.mk.injEq, DState.mk.injEq, hlen,
        and_true, true_and]
      omega
end

/-- The lone-empty-field record: when a round-trippable value's only field
is empty, the writer's terminator path emits `""`, and decoding reads that
quoted empty field back. -/
theorem decodeTy_emptyFieldRecord : ∀ {v : Value} {t : Ty}, HasTy v t →
    ∀ (input : List Nat) (cap : Nat) (st : DState) (d : Nat) (rest : List Nat),
      (d = DELIM ∨ d = LF) → st.peeked = Option.none →
      st.recordEnd = false → st.rs.afterCR = false →
      fieldsOf v = [[]] →
      input.drop st.nread = QUOTE :: QUOTE :: d :: rest →
      decodeTy input cap t st =
        .ok (v, ⟨st.nread + 3, sepRecEnd d, Option.none, sepRState d⟩)
  | _, _, .bool b => by
      intro input cap st d rest hd hp hre hcr hfields hdrop
      exfalso
      cases b <;> simp [fieldsOf, trueBytes, falseBytes] at hfields
  | _, _, .int n lo hi _ _ => by
      intro input cap st d rest hd hp hre hcr hfields hdrop
      exact absurd (by simpa [fieldsOf] using hfields) (intRepr_ne_nil n)
  | _, _, .char c _ => by
      intro input cap st d rest hd hp hre hcr hfields hdrop
      exact absurd (by simpa [fieldsOf] using hfields) (utf8EncodeChar_ne_nil c)
  | _, _, .str sb cs hu => by
      intro input cap st d rest hd hp hre hcr hfields hdrop
      have hsb : sb = [] := by simpa [fieldsOf] using hfields
      subst hsb
      rcases hd with rfl | rfl
      · exact decode_str_ok input cap st _ [] cs hu
          (readBytes_quotedEmpty_delim input cap st rest hp hcr hdrop)
      · exact decode_str_ok input cap st _ [] cs hu
          (readBytes_quotedEmpty_term input cap st rest hp hcr hdrop)
  | _, _, .bytes bs => by
      intro input cap st d rest hd hp hre hcr hfields hdrop
      have hbs : bs = [] := by simpa [fieldsOf] using hfields
      subst hbs
      rcases hd with rfl | rfl
      · exact decode_bytes_ok input cap st _ []
          (readBytes_quotedEmpty_delim input cap st rest hp hcr hdrop)
      · exact decode_bytes_ok input cap st _ []
          (readBytes_quotedEmpty_term input cap st rest hp hcr hdrop)
  | _, _, .unit => by
      intro input cap st d rest hd hp hre hcr hfields hdrop
      rcases hd with rfl | rfl
      · exact decode_unit_ok input cap st _
          (readBytes_quotedEmpty_delim input cap st rest hp hcr hdrop)
      · exact decode_unit_ok input cap st _
          (readBytes_quotedEmpty_term input cap st rest hp hcr hdrop)
  | _, _, .unitVariant name variants hmem => by
      intro input cap st d rest hd hp hre hcr hfields hdrop
      have hname : name = [] := by simpa [fieldsOf] using hfields
      subst hname
      rcases hd with rfl | rfl
      · exact decode_cenum_ok input cap st _ [] variants hmem
          (readBytes_quotedEmpty_delim input cap st rest hp hcr hdrop)
      · exact decode_cenum_ok input cap st _ [] variants hmem
          (readBytes_quotedEmpty_term input cap st rest hp hcr hdrop)
  | _, _, .someBool b => by
      intro input cap st d rest hd hp hre hcr hfields hdrop
      exfalso
      cases b <;> simp [fieldsOf, trueBytes, falseBytes] at hfields
  | _, _, .someInt n lo hi _ _ => by
      intro input cap st d rest hd hp hre hcr hfields hdrop
      exact absurd (by simpa [fieldsOf] using hfields) (intRepr_ne_nil n)
  | _, _, .someChar c _ => by
      intro input cap st d rest hd hp hre hcr hfields hdrop
      exact absurd (by simpa [fieldsOf] using hfields) (utf8EncodeChar_ne_nil c)
  | _, _, .tuple v vs t ts h => by
      intro input cap st d rest hd hp hre hcr hfields hdrop
      match h with
      | .cons _ _ _ _ hv hrest =>
          have hfields' : fieldsOf v ++ fieldsElems vs = [[]] := hfields
          rcases hfo : fieldsOf v with _ | ⟨x, xs⟩
          · exact absurd hfo (fieldsOf_ne_nil hv)
          · rw [hfo] at hfields'
            simp only [List.cons_append, List.cons.injEq] at hfields'
            obtain ⟨hx, hrest2⟩ := hfields'
            have hxs : xs = [] := (List.append_eq_nil.mp hrest2).1
            have hB : fieldsElems vs = [] := (List.append_eq_nil.mp hrest2).2
            have hvnil : vs = .nil := fieldsElems_eq_nil hrest hB
            subst hvnil
            match hrest with
            | .nil =>
                have hfv : fieldsOf v = [[]] := by rw [hfo, hx, hxs]
                have hone := decodeTy_emptyFieldRecord hv input cap st d rest
                  hd hp hre hcr hfv hdrop
                simp only [decodeTy, decodeTys,
                  if_neg (by simp [hre] : ¬st.recordEnd = true), hone]
  | _, _, .array v vs t ts h => by
      intro input cap st d rest hd hp hre hcr hfields hdrop
      match h with
      | .cons _ _ _ _ hv hrest =>
          have hfields' : fieldsOf v ++ fieldsElems vs = [[]] := hfields
          rcases hfo : fieldsOf v with _ | ⟨x, xs⟩
          · exact absurd hfo (fieldsOf_ne_nil hv)
          · rw [hfo] at hfields'
            simp only [List.cons_append, List.cons.injEq] at hfields'
            obtain ⟨hx, hrest2⟩ := hfields'
            have hxs : xs = [] := (List.append_eq_nil.mp hrest2).1
            have hB : fieldsElems vs = [] := (List.append_eq_nil.mp hrest2).2
            have hvnil : vs = .nil := fieldsElems_eq_nil hrest hB
            subst hvnil
            match hrest with
            | .nil =>
                have hfv : fieldsOf v = [[]] := by rw [hfo, hx, hxs]
                have hone := decodeTy_emptyFieldRecord hv input cap st d rest
                  hd hp hre hcr hfv hdrop
                simp only [decodeTy, decodeTys,
                  if_neg (by simp [hre] : ¬st.recordEnd = true), hone]
  | _, _, .struct_ v vs t ts h => by
      intro input cap st d rest hd hp hre hcr hfields hdrop
      match h with
      | .cons _ _ _ _ hv hrest =>
          have hfields' : fieldsOf v ++ fieldsElems vs = [[]] := hfields
          rcases hfo : fieldsOf v with _ | ⟨x, xs⟩
          · exact absurd hfo (fieldsOf_ne_nil hv)
          · rw [hfo] at hfields'
            simp only [List.cons_append, List.cons.injEq] at hfields'
            obtain ⟨hx, hrest2⟩ := hfields'
            have hxs : xs = [] := (List.append_eq_nil.mp hrest2).1
            have hB : fieldsElems vs = [] := (List.append_eq_nil.mp hrest2).2
            have hvnil : vs = .nil := fieldsElems_eq_nil hrest hB
            subst hvnil
            match hrest with
            | .nil =>
                have hfv : fieldsOf v = [[]] := by rw [hfo, hx, hxs]
                have hone := decodeTy_emptyFieldRecord hv input cap st d rest
                  hd hp hre hcr hfv hdrop
                simp only [decodeTy, decodeTys,
                  if_neg (by simp [hre] : ¬st.recordEnd = true), hone]

/-- C1 counterexample.  The unit struct named `S` is a supported type whose
serialization succeeds (producing `S` plus the terminator), yet deserializing
exactly those bytes as the same type fails with `ExpectedEmpty` instead of
returning the value. -/
theorem c1_counterexample :
    serializeBytes (.unitStruct [83]) = [83, 10] ∧
      decodeTop (.unitStruct [83]) 1 [83, 10] = .err .expectedEmpty :=
  ⟨rfl, rfl⟩

/-- C1 (amended).  For every value/type pair in the round-trip universe
`HasTy` — scalar leaves (bool, ranged ints, chars, valid-UTF-8 strings,
byte strings, unit, unit enum variants), `Some` over scalar leaves, and
nonempty tuples / arrays / structs of such — and any scratch capacity at
least the longest unescaped field, decoding the bytes `Writer::serialize`
produced returns exactly the original value and consumes the whole record.
Excluded from the universe because the code fails on them: unit structs
(the counterexample, see also C10), `None` / `Some`-of-empty-encodings
followed by further fields (the peeked empty field leaks into the next
read), empty composites, variable-length sequences in non-trailing
position, and float leaves (delegated to the external `ryu` / `lexical`
formatters, out of the model's scope). -/
theorem c1_roundtrip : ∀ {v : Value} {t : Ty}, HasTy v t →
    ∀ cap : Nat, (∀ f ∈ fieldsOf v, f.length ≤ cap) →
      decodeTop t cap (serializeBytes v) = .ok (v, (serializeBytes v).length) := by
  intro v t h cap hcap
  have hser := serializeBytes_eq_join h
  by_cases hnil : (joinFields (fieldsOf v)).length = 0
  · have hjoin : joinFields (fieldsOf v) = [] := List.length_eq_zero.mp hnil
    have hfields : fieldsOf v = [[]] := by
      rcases joinFields_eq_nil _ hjoin with h0 | h1
      · exact absurd h0 (fieldsOf_ne_nil h)
      · exact h1
    have hbytes : serializeBytes v = [QUOTE, QUOTE, LF] := by
      rw [hser, hjoin, if_pos (by simp)]
      rfl
    rw [hbytes]
    have hone := decodeTy_emptyFieldRecord h [QUOTE, QUOTE, LF] cap initDState
      LF [] (Or.inr rfl) rfl rfl rfl hfields (by simp [initDState])
    simp only [decodeTop, hone]
    rfl
  · have hbytes : serializeBytes v = joinFields (fieldsOf v) ++ [LF] := by
      rw [hser, if_neg hnil]
    rw [hbytes]
    have hone := decodeTy_roundtrip h (joinFields (fieldsOf v) ++ [LF]) cap
      initDState LF [] (Or.inr rfl) rfl rfl rfl (by simp [initDState]) hcap
    simp only [decodeTop, hone]
    simp [initDState]

/-- C1 witness: the struct `{x: i8 = 5, y: bool = true}` round-trips through
the codec with scratch capacity 4. -/
theorem c1_witness :
    HasTy (.struct_ (.cons (.int 5) (.cons (.bool true) .nil)))
      (.struct_ (.cons (.int (-128) 127) (.cons .bool .nil))) ∧
    decodeTop (.struct_ (.cons (.int (-128) 127) (.cons .bool .nil))) 4
        (serializeBytes (.struct_ (.cons (.int 5) (.cons (.bool true) .nil)))) =
      .ok (.struct_ (.cons (.int 5) (.cons (.bool true) .nil)),
        (serializeBytes
          (.struct_ (.cons (.int 5) (.cons (.bool true) .nil)))).length) := by
  have hty : HasTy (.struct_ (.cons (.int 5) (.cons (.bool true) .nil)))
      (.struct_ (.cons (.int (-128) 127) (.cons .bool .nil))) :=
    .struct_ _ _ _ _ (.cons _ _ _ _ (.int 5 (-128) 127 (by decide) (by decide))
      (.cons _ _ _ _ (.bool true) .nil))
  exact ⟨hty, c1_roundtrip hty 4 (by decide)⟩

/-! ## Claim C3: decoding is closed under truncation to the consumed prefix

The tokenizer's verdict about one field depends only on the bytes it
consumed: a `Field` result is reproduced verbatim on any input that keeps at
least the consumed bytes, while `InputEmpty`/`End` results mean the whole
remaining input was consumed.  These facts lift through the driver to the
full `Reader::deserialize`. -/

theorem scanUnquoted_spec :
    ∀ (input acc : List Nat) (c cap : Nat),
      (scanUnquoted cap acc c input).2.1 ≤ c + input.length ∧
      ((scanUnquoted cap acc c input).1 = .inputEmpty →
        (scanUnquoted cap acc c input).2.1 = c + input.length) ∧
      (∀ (bb : Bool) (r : Nat) (w : List Nat) (s2 : RState),
        scanUnquoted cap acc c input = (.fld bb, r, w, s2) →
        c + 1 ≤ r ∧ ∀ k, r - c ≤ k →
          scanUnquoted cap acc c (input.take k) = (.fld bb, r, w, s2)) := by
  intro input
  induction input with
  | nil =>
      intro acc c cap
      refine ⟨by simp [scanUnquoted], by simp [scanUnquoted], ?_⟩
      intro bb r w s2 h
      simp [scanUnquoted, Prod.ext_iff] at h
  | cons b rest ih =>
      intro acc c cap
      by_cases h1 : b = DELIM
      · have heq : scanUnquoted cap acc c (b :: rest) =
            (.fld false, c + 1, acc, ⟨false, true⟩) := by
          rw [scanUnquoted, if_pos h1]
        refine ⟨by rw [heq]; simp, by rw [heq]; simp, ?_⟩
        intro bb r w s2 h
        rw [heq] at h
        obtain ⟨hb, hr, hw, hs⟩ :
            FieldRes.fld false = FieldRes.fld bb ∧ c + 1 = r ∧ acc = w ∧
              (⟨false, true⟩ : RState) = s2 := by
          simpa [Prod.ext_iff] using h
        subst hr hw hs
        refine ⟨le_refl _, ?_⟩
        intro k hk
        match k, hk with
        | 0, hk0 => omega
        | k + 1, _ =>
            show scanUnquoted cap acc c (b :: rest.take k) = _
            rw [scanUnquoted, if_pos h1, hb]
      · by_cases h2 : b = LF
        · have heq : scanUnquoted cap acc c (b :: rest) =
              (.fld true, c + 1, acc, ⟨false, false⟩) := by
            rw [scanUnquoted, if_neg h1, if_pos h2]
          refine ⟨by rw [heq]; simp, by rw [heq]; simp, ?_⟩
          intro bb r w s2 h
          rw [heq] at h
          obtain ⟨hb, hr, hw, hs⟩ :
              FieldRes.fld true = FieldRes.fld bb ∧ c + 1 = r ∧ acc = w ∧
                (⟨false, false⟩ : RState) = s2 := by
            simpa [Prod.ext_iff] using h
          subst hr hw hs
          refine ⟨le_refl _, ?_⟩
          intro k hk
          match k, hk with
          | 0, hk0 => omega
          | k + 1, _ =>
              show scanUnquoted cap acc c (b :: rest.take k) = _
              rw [scanUnquoted, if_neg h1, if_pos h2, hb]
        · by_cases h3 : b = CR
          · have heq : scanUnquoted cap acc c (b :: rest) =
                (.fld true, c + 1, acc, ⟨true, false⟩) := by
              rw [scanUnquoted, if_neg h1, if_neg h2, if_pos h3]
            refine ⟨by rw [heq]; simp, by rw [heq]; simp, ?_⟩
            intro bb r w s2 h
            rw [heq] at h
            obtain ⟨hb, hr, hw, hs⟩ :
                FieldRes.fld true = FieldRes.fld bb ∧ c + 1 = r ∧ acc = w ∧
                  (⟨true, false⟩ : RState) = s2 := by
              simpa [Prod.ext_iff] using h
            subst hr hw hs
            refine ⟨le_refl _, ?_⟩
            intro k hk
            match k, hk with
            | 0, hk0 => omega
            | k + 1, _ =>
                show scanUnquoted cap acc c (b :: rest.take k) = _
                rw [scanUnquoted, if_neg h1, if_neg h2, if_pos h3, hb]
          · by_cases h4 : acc.length = cap
            · have heq : scanUnquoted cap acc c (b :: rest) =
                  (.outFull, c, acc, ⟨false, true⟩) := by
                rw [scanUnquoted, if_neg h1, if_neg h2, if_neg h3, if_pos h4]
              refine ⟨by rw [heq]; simp, by rw [heq]; simp, ?_⟩
              intro bb r w s2 h
              rw [heq] at h
              simp [Prod.ext_iff] at h
            · have heq : scanUnquoted cap acc c (b :: rest) =
                  scanUnquoted cap (acc ++ [b]) (c + 1) rest := by
                rw [scanUnquoted, if_neg h1, if_neg h2, if_neg h3, if_neg h4]
              obtain ⟨ihle, ihie, ihfld⟩ := ih (acc ++ [b]) (c + 1) cap
              refine ⟨?_, ?_, ?_⟩
              · rw [heq]
                simp only [List.length_cons]
                omega
              · rw [heq]
                intro hie
                have := ihie hie
                simp only [List.length_cons]
                omega
              intro bb r w s2 h
              rw [heq] at h
              obtain ⟨hge, htake⟩ := ihfld bb r w s2 h
              refine ⟨by omega, ?_⟩
              intro k hk
              match k, (by omega : 1 ≤ k) with
              | 0, hk0 => omega
              | k + 1, _ =>
                  show scanUnquoted cap acc c (b :: rest.take k) = _
                  rw [scanUnquoted, if_neg h1, if_neg h2, if_neg h3, if_neg h4]
                  exact htake k (by omega)

theorem scanQuoted_spec :
    ∀ (input acc : List Nat) (c cap : Nat),
      (scanQuoted cap acc c input).2.1 ≤ c + input.length ∧
      ((scanQuoted cap acc c input).1 = .inputEmpty →
        (scanQuoted cap acc c input).2.1 = c + input.length) ∧
      (∀ (bb : Bool) (r : Nat) (w : List Nat) (s2 : RState),
        scanQuoted cap acc c input = (.fld bb, r, w, s2) →
        c + 1 ≤ r ∧ ∀ k, r - c ≤ k →
          scanQuoted cap acc c (input.take k) = (.fld bb, r, w, s2))
  | [], acc, c, cap => by
      refine ⟨by simp [scanQuoted], by simp [scanQuoted], ?_⟩
      intro bb r w s2 h
      simp [scanQuoted, Prod.ext_iff] at h
  | b :: rest, acc, c, cap => by
      by_cases hq : b = QUOTE
      · subst hq
        rcases rest with _ | ⟨c2, rest2⟩
        · have heq : scanQuoted cap acc c [QUOTE] =
              (.inputEmpty, c + 1, acc, ⟨false, true⟩) := by
            rw [scanQuoted, if_pos rfl]
          refine ⟨by rw [heq]; simp, by rw [heq]; simp, ?_⟩
          intro bb r w s2 h
          rw [heq] at h
          simp [Prod.ext_iff] at h
        · by_cases h1 : c2 = DELIM
          · have heq : scanQuoted cap acc c (QUOTE :: c2 :: rest2) =
                (.fld false, c + 2, acc, ⟨false, true⟩) := by
              rw [scanQuoted, if_pos rfl, if_pos h1]
            refine ⟨by rw [heq]; simp only [List.length_cons]; omega,
              by rw [heq]; simp, ?_⟩
            intro bb r w s2 h
            rw [heq] at h
            obtain ⟨hb, hr, hw, hs⟩ :
                FieldRes.fld false = FieldRes.fld bb ∧ c + 2 = r ∧ acc = w ∧
                  (⟨false, true⟩ : RState) = s2 := by
              simpa [Prod.ext_iff] using h
            subst hr hw hs
            refine ⟨by omega, ?_⟩
            intro k hk
            match k, hk with
            | 0, hk0 => omega
            | 1, hk0 => omega
            | k + 2, _ =>
                show scanQuoted cap acc c (QUOTE :: c2 :: rest2.take k) = _
                rw [scanQuoted, if_pos rfl, if_pos h1, hb]
          · by_cases h2 : c2 = LF
            · have heq : scanQuoted cap acc c (QUOTE :: c2 :: rest2) =
                  (.fld true, c + 2, acc, ⟨false, false⟩) := by
                rw [scanQuoted, if_pos rfl, if_neg h1, if_pos h2]
              refine ⟨by rw [heq]; simp only [List.length_cons]; omega,
                by rw [heq]; simp, ?_⟩
              intro bb r w s2 h
              rw [heq] at h
              obtain ⟨hb, hr, hw, hs⟩ :
                  FieldRes.fld true = FieldRes.fld bb ∧ c + 2 = r ∧ acc = w ∧
                    (⟨false, false⟩ : RState) = s2 := by
                simpa [Prod.ext_iff] using h
              subst hr hw hs
              refine ⟨by omega, ?_⟩
              intro k hk
              match k, hk with
              | 0, hk0 => omega
              | 1, hk0 => omega
              | k + 2, _ =>
                  show scanQuoted cap acc c (QUOTE :: c2 :: rest2.take k) = _
                  rw [scanQuoted, if_pos rfl, if_neg h1, if_pos h2, hb]
            · by_cases h3 : c2 = CR
              · have heq : scanQuoted cap acc c (QUOTE :: c2 :: rest2) =
                    (.fld true, c + 2, acc, ⟨true, false⟩) := by
                  rw [scanQuoted, if_pos rfl, if_neg h1, if_neg h2, if_pos h3]
                refine ⟨by rw [heq]; simp only [List.length_cons]; omega,
                  by rw [heq]; simp, ?_⟩
                intro bb r w s2 h
                rw [heq] at h
                obtain ⟨hb, hr, hw, hs⟩ :
                    FieldRes.fld true = FieldRes.fld bb ∧ c + 2 = r ∧ acc = w ∧
                      (⟨true, false⟩ : RState) = s2 := by
                  simpa [Prod.ext_iff] using h
                subst hr hw hs
                refine ⟨by omega, ?_⟩
                intro k hk
                match k, hk with
                | 0, hk0 => omega
                | 1, hk0 => omega
                | k + 2, _ =>
                    show scanQuoted cap acc c (QUOTE :: c2 :: rest2.take k) = _
                    rw [scanQuoted, if_pos rfl, if_neg h1, if_neg h2,
                      if_pos h3, hb]
              · by_cases h4 : acc.length = cap
                · have heq : scanQuoted cap acc c (QUOTE :: c2 :: rest2) =
                      (.outFull, c + 1, acc, ⟨false, true⟩) := by
                    rw [scanQuoted, if_pos rfl, if_neg h1, if_neg h2,
                      if_neg h3, if_pos h4]
                  refine ⟨by rw [heq]; simp only [List.length_cons]; omega,
                    by rw [heq]; simp, ?_⟩
                  intro bb r w s2 h
                  rw [heq] at h
                  simp [Prod.ext_iff] at h
                · by_cases h5 : c2 = QUOTE
                  · have heq : scanQuoted cap acc c (QUOTE :: c2 :: rest2) =
                        scanQuoted cap (acc ++ [QUOTE]) (c + 2) rest2 := by
                      rw [scanQuoted, if_pos rfl, if_neg h1, if_neg h2,
                        if_neg h3, if_neg h4, if_pos h5]
                    obtain ⟨ihle, ihie, ihfld⟩ :=
                      scanQuoted_spec rest2 (acc ++ [QUOTE]) (c + 2) cap
                    refine ⟨?_, ?_, ?_⟩
                    · rw [heq]
                      simp only [List.length_cons]
                      omega
                    · rw [heq]
                      intro hie
                      have := ihie hie
                      simp only [List.length_cons]
                      omega
                    intro bb r w s2 h
                    rw [heq] at h
                    obtain ⟨hge, htake⟩ := ihfld bb r w s2 h
                    refine ⟨by omega, ?_⟩
                    intro k hk
                    match k, (by omega : 2 ≤ k) with
                    | k + 2, _ =>
                        show scanQuoted cap acc c
                          (QUOTE :: c2 :: rest2.take k) = _
                        rw [scanQuoted, if_pos rfl, if_neg h1, if_neg h2,
                          if_neg h3, if_neg h4, if_pos h5]
                        exact htake k (by omega)
                  · have heq : scanQuoted cap acc c (QUOTE :: c2 :: rest2) =
                        scanUnquoted cap (acc ++ [c2]) (c + 2) rest2 := by
                      rw [scanQuoted, if_pos rfl, if_neg h1, if_neg h2,
                        if_neg h3, if_neg h4, if_neg h5]
                    obtain ⟨ihle, ihie, ihfld⟩ :=
                      scanUnquoted_spec rest2 (acc ++ [c2]) (c + 2) cap
                    refine ⟨?_, ?_, ?_⟩
                    · rw [heq]
                      simp only [List.length_cons]
                      omega
                    · rw [heq]
                      intro hie
                      have := ihie hie
                      simp only [List.length_cons]
                      omega
                    intro bb r w s2 h
                    rw [heq] at h
                    obtain ⟨hge, htake⟩ := ihfld bb r w s2 h
                    refine ⟨by omega, ?_⟩
                    intro k hk
                    match k, (by omega : 2 ≤ k) with
                    | k + 2, _ =>
                        show scanQuoted cap acc c
                          (QUOTE :: c2 :: rest2.take k) = _
                        rw [scanQuoted, if_pos rfl, if_neg h1, if_neg h2,
                          if_neg h3, if_neg h4, if_neg h5]
                        exact htake k (by omega)
      · by_cases h4 : acc.length = cap
        · have heq : scanQuoted cap acc c (b :: rest) =
              (.outFull, c, acc, ⟨false, true⟩) := by
            rw [scanQuoted.eq_def]
            dsimp only
            rw [if_neg hq, if_pos h4]
          refine ⟨by rw [heq]; simp, by rw [heq]; simp, ?_⟩
          intro bb r w s2 h
          rw [heq] at h
          simp [Prod.ext_iff] at h
        · have heq : scanQuoted cap acc c (b :: rest) =
              scanQuoted cap (acc ++ [b]) (c + 1) rest := by
            rw [scanQuoted.eq_def]
            dsimp only
            rw [if_neg hq, if_neg h4]
          obtain ⟨ihle, ihie, ihfld⟩ :=
            scanQuoted_spec rest (acc ++ [b]) (c + 1) cap
          refine ⟨?_, ?_, ?_⟩
          · rw [heq]
            simp only [List.length_cons]
            omega
          · rw [heq]
            intro hie
            have := ihie hie
            simp only [List.length_cons]
            omega
          intro bb r w s2 h
          rw [heq] at h
          obtain ⟨hge, htake⟩ := ihfld bb r w s2 h
          refine ⟨by omega, ?_⟩
          intro k hk
          match k, (by omega : 1 ≤ k) with
          | k + 1, _ =>
              show scanQuoted cap acc c (b :: rest.take k) = _
              rw [scanQuoted.eq_def]
              simp only [if_neg hq, if_neg h4]
              exact htake k (by omega)

/-- Unquoted scanning never reports `End`. -/
theorem scanUnquoted_ne_eof :
    ∀ (input acc : List Nat) (c cap : Nat),
      (scanUnquoted cap acc c input).1 ≠ .eof
  | [], acc, c, cap => by simp [scanUnquoted]
  | b :: rest, acc, c, cap => by
      rw [scanUnquoted]
      split
      · simp
      split
      · simp
      split
      · simp
      split
      · simp
      exact scanUnquoted_ne_eof rest (acc ++ [b]) (c + 1) cap

/-- Quoted scanning never reports `End`. -/
theorem scanQuoted_ne_eof :
    ∀ (input acc : List Nat) (c cap : Nat),
      (scanQuoted cap acc c input).1 ≠ .eof
  | [], acc, c, cap => by simp [scanQuoted]
  | b :: rest, acc, c, cap => by
      by_cases hq : b = QUOTE
      · subst hq
        rcases rest with _ | ⟨c2, rest2⟩
        · simp [scanQuoted]
        · rw [scanQuoted, if_pos rfl]
          split
          · simp
          split
          · simp
          split
          · simp
          split
          · simp
          split
          · exact scanQuoted_ne_eof rest2 (acc ++ [QUOTE]) (c + 2) cap
          · exact scanUnquoted_ne_eof rest2 (acc ++ [_]) (c + 2) cap
      · rw [scanQuoted.eq_def]
        dsimp only
        rw [if_neg hq]
        split
        · simp
        exact scanQuoted_ne_eof rest (acc ++ [b]) (c + 1) cap

/-- `readFieldCore` consumption bookkeeping: the reported consumption never
exceeds the remaining input (plus the already-counted base); `InputEmpty`
and `End` consume everything; a `Field` result is reproduced verbatim on any
truncation of the input that keeps at least the consumed bytes. -/
theorem readFieldCore_spec (s : RState) (base cap : Nat) (input : List Nat) :
    (readFieldCore s base cap input).2.1 ≤ base + input.length ∧
    ((readFieldCore s base cap input).1 = .inputEmpty →
      (readFieldCore s base cap input).2.1 = base + input.length) ∧
    ((readFieldCore s base cap input).1 = .eof →
      (readFieldCore s base cap input).2.1 = base + input.length) ∧
    (∀ (bb : Bool) (r : Nat) (w : List Nat) (s2 : RState),
      readFieldCore s base cap input = (.fld bb, r, w, s2) →
      base ≤ r ∧ ∀ k, r - base ≤ k →
        readFieldCore s base cap (input.take k) = (.fld bb, r, w, s2)) := by
  rcases input with _ | ⟨b, rest⟩
  · by_cases hir : s.inRecord
    · have heq : readFieldCore s base cap [] =
          (.fld true, base, [], ⟨false, false⟩) := by
        rw [readFieldCore, if_pos hir]
      refine ⟨by rw [heq]; simp, by rw [heq]; simp, by rw [heq]; simp, ?_⟩
      intro bb r w s2 h
      rw [heq] at h
      obtain ⟨hb, hr, hw, hs⟩ :
          FieldRes.fld true = FieldRes.fld bb ∧ base = r ∧
            ([] : List Nat) = w ∧ (⟨false, false⟩ : RState) = s2 := by
        simpa [Prod.ext_iff] using h
      subst hr hw hs
      refine ⟨le_refl _, ?_⟩
      intro k _
      rw [List.take_nil, heq, hb]
    · have heq : readFieldCore s base cap [] =
          (.eof, base, [], ⟨false, false⟩) := by
        rw [readFieldCore, if_neg hir]
      refine ⟨by rw [heq]; simp, by rw [heq]; simp, by rw [heq]; simp, ?_⟩
      intro bb r w s2 h
      rw [heq] at h
      simp [Prod.ext_iff] at h
  · by_cases hq : b = QUOTE
    · have heq : readFieldCore s base cap (b :: rest) =
          scanQuoted cap [] (base + 1) rest := by
        rw [readFieldCore, if_pos hq]
      obtain ⟨qle, qie, qfld⟩ := scanQuoted_spec rest [] (base + 1) cap
      have qeof := scanQuoted_ne_eof rest [] (base + 1) cap
      refine ⟨?_, ?_, ?_, ?_⟩
      · rw [heq]
        simp only [List.length_cons]
        omega
      · rw [heq]
        intro hie
        have := qie hie
        simp only [List.length_cons]
        omega
      · rw [heq]
        intro hie
        exact absurd hie qeof
      intro bb r w s2 h
      rw [heq] at h
      obtain ⟨hge, htake⟩ := qfld bb r w s2 h
      refine ⟨by omega, ?_⟩
      intro k hk
      match k, (by omega : 1 ≤ k) with
      | k + 1, _ =>
          show readFieldCore s base cap (b :: rest.take k) = _
          rw [readFieldCore, if_pos hq]
          exact htake k (by omega)
    · have heq : readFieldCore s base cap (b :: rest) =
          scanUnquoted cap [] base (b :: rest) := by
        rw [readFieldCore, if_neg hq]
      obtain ⟨ule, uie, ufld⟩ := scanUnquoted_spec (b :: rest) [] base cap
      have ueof := scanUnquoted_ne_eof (b :: rest) [] base cap
      refine ⟨?_, ?_, ?_, ?_⟩
      · rw [heq]
        exact ule
      · rw [heq]
        exact uie
      · rw [heq]
        intro hie
        exact absurd hie ueof
      intro bb r w s2 h
      rw [heq] at h
      obtain ⟨hge, htake⟩ := ufld bb r w s2 h
      refine ⟨by omega, ?_⟩
      intro k hk
      match k, (by omega : 1 ≤ k) with
      | k + 1, _ =>
          show readFieldCore s base cap (b :: rest.take k) = _
          rw [readFieldCore, if_neg hq]
          exact htake (k + 1) (by omega)

/-- On empty input the CRLF skip is irrelevant. -/
theorem readField_afterCR_nil (ir : Bool) (cap : Nat) :
    readField ⟨true, ir⟩ [] cap = readFieldCore ⟨false, ir⟩ 0 cap [] := rfl

/-- With the CR flag set, a leading `\n` is swallowed before the field. -/
theorem readField_afterCR_LF (ir : Bool) (l : List Nat) (cap : Nat) :
    readField ⟨true, ir⟩ (LF :: l) cap = readFieldCore ⟨false, ir⟩ 1 cap l := by
  simp [readField]

/-- With the CR flag set but no `\n` following, nothing is swallowed. -/
theorem readField_afterCR_cons (ir : Bool) (b : Nat) (l : List Nat) (cap : Nat)
    (hb : b ≠ LF) :
    readField ⟨true, ir⟩ (b :: l) cap =
      readFieldCore ⟨false, ir⟩ 0 cap (b :: l) := by
  simp [readField, hb]

/-- `readField` consumption bookkeeping, lifted over the CRLF skip. -/
theorem readField_spec (s : RState) (input : List Nat) (cap : Nat) :
    (readField s input cap).2.1 ≤ input.length ∧
    ((readField s input cap).1 = .inputEmpty →
      (readField s input cap).2.1 = input.length) ∧
    ((readField s input cap).1 = .eof →
      (readField s input cap).2.1 = input.length) ∧
    (∀ (bb : Bool) (r : Nat) (w : List Nat) (s2 : RState),
      readField s input cap = (.fld bb, r, w, s2) →
      ∀ m, r ≤ m → readField s (input.take m) cap = (.fld bb, r, w, s2)) := by
  rcases s with ⟨acr, ir⟩
  rcases acr with _ | _
  · have heq : ∀ (l : List Nat), readField ⟨false, ir⟩ l cap =
        readFieldCore ⟨false, ir⟩ 0 cap l := fun l => readField_noCR l cap ir
    obtain ⟨cle, cie, ceof, cfld⟩ := readFieldCore_spec ⟨false, ir⟩ 0 cap input
    refine ⟨?_, ?_, ?_, ?_⟩
    · rw [heq]
      simpa using cle
    · rw [heq]
      intro hie
      simpa using cie hie
    · rw [heq]
      intro hie
      simpa using ceof hie
    intro bb r w s2 h
    rw [heq] at h
    obtain ⟨_, htake⟩ := cfld bb r w s2 h
    intro m hm
    rw [heq]
    exact htake m (by omega)
  · rcases input with _ | ⟨b, rest⟩
    · have heq : readField ⟨true, ir⟩ [] cap =
          readFieldCore ⟨false, ir⟩ 0 cap [] := rfl
      obtain ⟨cle, cie, ceof, cfld⟩ := readFieldCore_spec ⟨false, ir⟩ 0 cap []
      refine ⟨?_, ?_, ?_, ?_⟩
      · rw [heq]
        simpa using cle
      · rw [heq]
        intro hie
        simpa using cie hie
      · rw [heq]
        intro hie
        simpa using ceof hie
      intro bb r w s2 h
      rw [heq] at h
      obtain ⟨_, htake⟩ := cfld bb r w s2 h
      intro m hm
      rw [List.take_nil, heq]
      exact h
    · by_cases hb : b = LF
      · subst hb
        have heq : readField ⟨true, ir⟩ (LF :: rest) cap =
            readFieldCore ⟨false, ir⟩ 1 cap rest :=
          readField_afterCR_LF ir rest cap
        obtain ⟨cle, cie, ceof, cfld⟩ := readFieldCore_spec ⟨false, ir⟩ 1 cap rest
        refine ⟨?_, ?_, ?_, ?_⟩
        · rw [heq]
          simp only [List.length_cons]
          omega
        · rw [heq]
          intro hie
          have := cie hie
          simp only [List.length_cons]
          omega
        · rw [heq]
          intro hie
          have := ceof hie
          simp only [List.length_cons]
          omega
        intro bb r w s2 h
        rw [heq] at h
        obtain ⟨hge, htake⟩ := cfld bb r w s2 h
        intro m hm
        match m, (by omega : 1 ≤ m) with
        | m + 1, _ =>
            show readField ⟨true, ir⟩ (LF :: rest.take m) cap = _
            rw [readField_afterCR_LF ir (rest.take m) cap]
            exact htake m (by omega)
      · have heq : readField ⟨true, ir⟩ (b :: rest) cap =
            readFieldCore ⟨false, ir⟩ 0 cap (b :: rest) :=
          readField_afterCR_cons ir b rest cap hb
        obtain ⟨cle, cie, ceof, cfld⟩ :=
          readFieldCore_spec ⟨false, ir⟩ 0 cap (b :: rest)
        refine ⟨?_, ?_, ?_, ?_⟩
        · rw [heq]
          simpa using cle
        · rw [heq]
          intro hie
          simpa using cie hie
        · rw [heq]
          intro hie
          simpa using ceof hie
        intro bb r w s2 h
        rw [heq] at h
        obtain ⟨hge, htake⟩ := cfld bb r w s2 h
        intro m hm
        match m with
        | 0 =>
            show readField ⟨true, ir⟩ [] cap = _
            exact htake 0 (by omega)
        | m + 1 =>
            show readField ⟨true, ir⟩ (b :: rest.take m) cap = _
            rw [readField_afterCR_cons ir b (rest.take m) cap hb]
            exact htake (m + 1) (by omega)

/-- `read_bytes_impl` bookkeeping: on success from a state whose `nread`
points inside the input, `nread` only grows, stays inside the input, and the
call is reproduced verbatim on any truncation keeping at least `nread` bytes. -/
theorem readBytesImpl_spec (input : List Nat) (cap : Nat) (s : DState)
    (hs : s.nread ≤ input.length) :
    ∀ (w : List Nat) (s2 : DState), readBytesImpl input cap s = .ok (w, s2) →
      s.nread ≤ s2.nread ∧ s2.nread ≤ input.length ∧
      ∀ n, s2.nread ≤ n → readBytesImpl (input.take n) cap s = .ok (w, s2) := by
  intro w s2 h
  have h0 := h
  obtain ⟨res, r, w', rs2, hrf⟩ : ∃ res r w' rs2,
      readField s.rs (input.drop s.nread) cap = (res, r, w', rs2) :=
    ⟨_, _, _, _, rfl⟩
  obtain ⟨fle, fie, feof, ffld⟩ := readField_spec s.rs (input.drop s.nread) cap
  rw [hrf] at fle fie feof
  dsimp only at fle fie feof
  have hremlen : (input.drop s.nread).length = input.length - s.nread :=
    List.length_drop _ _
  simp only [readBytesImpl, hrf] at h
  cases res with
  | inputEmpty =>
      have hr : r = input.length - s.nread := by
        have := fie rfl
        omega
      obtain ⟨hw, hs2⟩ : w' = w ∧
          ({ s with nread := s.nread + r, rs := rs2 } : DState) = s2 := by
        simpa using h
      subst hw hs2
      refine ⟨by dsimp only; omega, by dsimp only; omega, ?_⟩
      intro n hn
      dsimp only at hn
      rw [← h0, List.take_of_length_le (by omega)]
  | outFull => simp at h
  | eof =>
      have hr : r = input.length - s.nread := by
        have := feof rfl
        omega
      obtain ⟨hw, hs2⟩ : w' = w ∧
          ({ s with nread := s.nread + r, rs := rs2 } : DState) = s2 := by
        simpa using h
      subst hw hs2
      refine ⟨by dsimp only; omega, by dsimp only; omega, ?_⟩
      intro n hn
      dsimp only at hn
      rw [← h0, List.take_of_length_le (by omega)]
  | fld re =>
      have hrle : r ≤ input.length - s.nread := by
        have := fle
        omega
      obtain ⟨hw, hs2⟩ : w' = w ∧
          ({ s with nread := s.nread + r, recordEnd := re, rs := rs2 } :
            DState) = s2 := by
        simpa using h
      subst hw hs2
      refine ⟨by dsimp only; omega, by dsimp only; omega, ?_⟩
      intro n hn
      dsimp only at hn
      have hdt : (input.take n).drop s.nread =
          (input.drop s.nread).take (n - s.nread) := by
        have hn' : s.nread + (n - s.nread) = n := by omega
        rw [List.take_drop, hn']
      have htake := (ffld re r _ rs2 hrf) (n - s.nread) (by omega)
      rw [← h0]
      simp only [readBytesImpl, hdt, htake, hrf]

/-- `read_bytes` bookkeeping: either hands out the peeked field without
touching the input, or behaves as `read_bytes_impl`. -/
theorem readBytes_spec (input : List Nat) (cap : Nat) (s : DState)
    (hs : s.nread ≤ input.length) :
    ∀ (w : List Nat) (s2 : DState), readBytes input cap s = .ok (w, s2) →
      s.nread ≤ s2.nread ∧ s2.nread ≤ input.length ∧
      ∀ n, s2.nread ≤ n → readBytes (input.take n) cap s = .ok (w, s2) := by
  intro w s2 h
  rcases hp : s.peeked with _ | bs
  · simp only [readBytes, hp] at h
    obtain ⟨h1, h2, h3⟩ := readBytesImpl_spec input cap s hs w s2 h
    refine ⟨h1, h2, ?_⟩
    intro n hn
    simp only [readBytes, hp]
    exact h3 n hn
  · simp only [readBytes, hp] at h
    obtain ⟨hw, hs2⟩ : bs = w ∧ ({ s with peeked := Option.none } : DState) = s2 := by
      simpa using h
    subst hw hs2
    refine ⟨by dsimp only; omega, by dsimp only; omega, ?_⟩
    intro n hn
    simp only [readBytes, hp]

/-- `peek_bytes` bookkeeping: materializing the next field obeys the same
consumption discipline as `read_bytes_impl`. -/
theorem peekBytes_spec (input : List Nat) (cap : Nat) (s : DState)
    (hs : s.nread ≤ input.length) :
    ∀ (w : List Nat) (s2 : DState), peekBytes input cap s = .ok (w, s2) →
      s.nread ≤ s2.nread ∧ s2.nread ≤ input.length ∧
      ∀ n, s2.nread ≤ n → peekBytes (input.take n) cap s = .ok (w, s2) := by
  intro w s2 h
  rcases hp : s.peeked with _ | bs
  · simp only [peekBytes, hp] at h
    obtain ⟨w', s2', himpl, hok⟩ : ∃ w' s2',
        readBytesImpl input cap s = .ok (w', s2') ∧
          DeRes.ok (w', { s2' with peeked := Option.some w' }) =
            .ok (w, s2) := by
      rcases himpl : readBytesImpl input cap s with ⟨w', s2'⟩ | e | _ <;>
        rw [himpl] at h
      · dsimp only at h
        exact ⟨_, _, rfl, h⟩
      · simp at h
      · simp at h
    obtain ⟨hw, hs2⟩ : w' = w ∧
        ({ s2' with peeked := Option.some w' } : DState) = s2 := by
      simpa using hok
    subst hw hs2
    obtain ⟨h1, h2, h3⟩ := readBytesImpl_spec input cap s hs _ s2' himpl
    refine ⟨by dsimp only; omega, by dsimp only; omega, ?_⟩
    intro n hn
    dsimp only at hn
    simp only [peekBytes, hp, h3 n hn]
  · simp only [peekBytes, hp] at h
    obtain ⟨hw, hs2⟩ : bs = w ∧ s = s2 := by simpa using h
    subst hw hs2
    refine ⟨le_refl _, hs, ?_⟩
    intro n hn
    simp only [peekBytes, hp]

mutual
/-- Deserialization at each type shape only advances `nread`, keeps it inside
the input, and a successful run is reproduced verbatim on any truncation of
the input keeping at least `nread` bytes. -/
theorem decodeTy_take :
    ∀ (t : Ty) (input : List Nat) (cap : Nat) (s : DState),
      s.nread ≤ input.length → ∀ (v : Value) (s2 : DState),
        decodeTy input cap t s = .ok (v, s2) →
        s.nread ≤ s2.nread ∧ s2.nread ≤ input.length ∧
        ∀ n, s2.nread ≤ n → decodeTy (input.take n) cap t s = .ok (v, s2)
  | .bool, input, cap, s => by
      intro hs v s2 h
      rcases hrb : readBytes input cap s with ⟨f, s'⟩ | e | _ <;>
          rw [decodeTy, hrb] at h <;> (try dsimp only at h)
      · obtain ⟨h1, h2, h3⟩ := readBytes_spec input cap s hs f s' hrb
        by_cases hf : f = trueBytes
        · rw [if_pos hf] at h
          obtain ⟨hv, hs2⟩ : Value.bool true = v ∧ s' = s2 := by simpa using h
          subst hv hs2
          refine ⟨h1, h2, ?_⟩
          intro n hn
          rw [decodeTy, h3 n hn]
          dsimp only
          rw [if_pos hf]
        · by_cases hg : f = falseBytes
          · rw [if_neg hf, if_pos hg] at h
            obtain ⟨hv, hs2⟩ : Value.bool false = v ∧ s' = s2 := by
              simpa using h
            subst hv hs2
            refine ⟨h1, h2, ?_⟩
            intro n hn
            rw [decodeTy, h3 n hn]
            dsimp only
            rw [if_neg hf, if_pos hg]
          · rw [if_neg hf, if_neg hg] at h
            simp at h
      · simp at h
      · simp at h
  | .int lo hi, input, cap, s => by
      intro hs v s2 h
      rcases hrb : readBytes input cap s with ⟨f, s'⟩ | e | _ <;>
          rw [decodeTy, hrb] at h <;> (try dsimp only at h)
      · obtain ⟨h1, h2, h3⟩ := readBytes_spec input cap s hs f s' hrb
        rcases hpi : parseIntBounded lo hi f with _ | m <;>
            rw [hpi] at h <;> (try dsimp only at h)
        · simp at h
        · obtain ⟨hv, hs2⟩ : Value.int m = v ∧ s' = s2 := by simpa using h
          subst hv hs2
          refine ⟨h1, h2, ?_⟩
          intro n hn
          rw [decodeTy, h3 n hn]
          dsimp only
          rw [hpi]
      · simp at h
      · simp at h
  | .char, input, cap, s => by
      intro hs v s2 h
      rcases hrb : readBytes input cap s with ⟨f, s'⟩ | e | _ <;>
          rw [decodeTy, hrb] at h <;> (try dsimp only at h)
      · obtain ⟨h1, h2, h3⟩ := readBytes_spec input cap s hs f s' hrb
        rcases hu : utf8Decode f with _ | cs <;> rw [hu] at h <;>
            (try dsimp only at h)
        · simp at h
        · rcases cs with _ | ⟨c, cs'⟩
          · simp at h
          rcases cs' with _ | ⟨c2, cs''⟩
          · obtain ⟨hv, hs2⟩ : Value.char c = v ∧ s' = s2 := by simpa using h
            subst hv hs2
            refine ⟨h1, h2, ?_⟩
            intro n hn
            rw [decodeTy, h3 n hn]
            dsimp only
            rw [hu]
          · simp at h
      · simp at h
      · simp at h
  | .str, input, cap, s => by
      intro hs v s2 h
      rcases hrb : readBytes input cap s with ⟨f, s'⟩ | e | _ <;>
          rw [decodeTy, hrb] at h <;> (try dsimp only at h)
      · obtain ⟨h1, h2, h3⟩ := readBytes_spec input cap s hs f s' hrb
        rcases hu : utf8Decode f with _ | cs <;> rw [hu] at h <;>
            (try dsimp only at h)
        · simp at h
        · obtain ⟨hv, hs2⟩ : Value.str f = v ∧ s' = s2 := by simpa using h
          subst hv hs2
          refine ⟨h1, h2, ?_⟩
          intro n hn
          rw [decodeTy, h3 n hn]
          dsimp only
          rw [hu]
      · simp at h
      · simp at h
  | .bytes, input, cap, s => by
      intro hs v s2 h
      rcases hrb : readBytes input cap s with ⟨f, s'⟩ | e | _ <;>
          rw [decodeTy, hrb] at h <;> (try dsimp only at h)
      · obtain ⟨h1, h2, h3⟩ := readBytes_spec input cap s hs f s' hrb
        obtain ⟨hv, hs2⟩ : Value.bytes f = v ∧ s' = s2 := by simpa using h
        subst hv hs2
        refine ⟨h1, h2, ?_⟩
        intro n hn
        rw [decodeTy, h3 n hn]
      · simp at h
      · simp at h
  | .unit, input, cap, s => by
      intro hs v s2 h
      rcases hrb : readBytes input cap s with ⟨f, s'⟩ | e | _ <;>
          rw [decodeTy, hrb] at h <;> (try dsimp only at h)
      · obtain ⟨h1, h2, h3⟩ := readBytes_spec input cap s hs f s' hrb
        by_cases hf : f = []
        · rw [if_pos hf] at h
          obtain ⟨hv, hs2⟩ : Value.unit = v ∧ s' = s2 := by simpa using h
          subst hv hs2
          refine ⟨h1, h2, ?_⟩
          intro n hn
          rw [decodeTy, h3 n hn]
          dsimp only
          rw [if_pos hf]
        · rw [if_neg hf] at h
          simp at h
      · simp at h
      · simp at h
  | .unitStruct name, input, cap, s => by
      intro hs v s2 h
      rcases hrb : readBytes input cap s with ⟨f, s'⟩ | e | _ <;>
          rw [decodeTy, hrb] at h <;> (try dsimp only at h)
      · obtain ⟨h1, h2, h3⟩ := readBytes_spec input cap s hs f s' hrb
        by_cases hf : f = []
        · rw [if_pos hf] at h
          obtain ⟨hv, hs2⟩ : Value.unitStruct name = v ∧ s' = s2 := by
            simpa using h
          subst hv hs2
          refine ⟨h1, h2, ?_⟩
          intro n hn
          rw [decodeTy, h3 n hn]
          dsimp only
          rw [if_pos hf]
        · rw [if_neg hf] at h
          simp at h
      · simp at h
      · simp at h
  | .option t, input, cap, s => by
      intro hs v s2 h
      rcases hpk : peekBytes input cap s with ⟨f, s'⟩ | e | _ <;>
          rw [decodeTy, hpk] at h <;> (try dsimp only at h)
      · obtain ⟨p1, p2, p3⟩ := peekBytes_spec input cap s hs f s' hpk
        by_cases hf : f = []
        · rw [if_pos hf] at h
          obtain ⟨hv, hs2⟩ : Value.none = v ∧ s' = s2 := by simpa using h
          subst hv hs2
          refine ⟨p1, p2, ?_⟩
          intro n hn
          rw [decodeTy, p3 n hn]
          dsimp only
          rw [if_pos hf]
        · rw [if_neg hf] at h
          rcases hin : decodeTy input cap t s' with ⟨v', s''⟩ | e | _ <;>
              rw [hin] at h <;> (try dsimp only at h)
          · obtain ⟨hv, hs2⟩ : Value.some v' = v ∧ s'' = s2 := by simpa using h
            subst hv hs2
            obtain ⟨q1, q2, q3⟩ := decodeTy_take t input cap s' p2 v' s'' hin
            refine ⟨by omega, q2, ?_⟩
            intro n hn
            rw [decodeTy, p3 n (by omega)]
            dsimp only
            rw [if_neg hf, q3 n hn]
          · simp at h
          · simp at h
      · simp at h
      · simp at h
  | .tuple ts, input, cap, s => by
      intro hs v s2 h
      rcases hin : decodeTys input cap ts s with ⟨vs, s'⟩ | e | _ <;>
          rw [decodeTy, hin] at h <;> (try dsimp only at h)
      · obtain ⟨hv, hs2⟩ : Value.tuple vs = v ∧ s' = s2 := by simpa using h
        subst hv hs2
        obtain ⟨q1, q2, q3⟩ := decodeTys_take ts input cap s hs vs s' hin
        refine ⟨q1, q2, ?_⟩
        intro n hn
        rw [decodeTy, q3 n hn]
      · simp at h
      · simp at h
  | .array ts, input, cap, s => by
      intro hs v s2 h
      rcases hin : decodeTys input cap ts s with ⟨vs, s'⟩ | e | _ <;>
          rw [decodeTy, hin] at h <;> (try dsimp only at h)
      · obtain ⟨hv, hs2⟩ : Value.array vs = v ∧ s' = s2 := by simpa using h
        subst hv hs2
        obtain ⟨q1, q2, q3⟩ := decodeTys_take ts input cap s hs vs s' hin
        refine ⟨q1, q2, ?_⟩
        intro n hn
        rw [decodeTy, q3 n hn]
      · simp at h
      · simp at h
  | .struct_ ts, input, cap, s => by
      intro hs v s2 h
      rcases hin : decodeTys input cap ts s with ⟨vs, s'⟩ | e | _ <;>
          rw [decodeTy, hin] at h <;> (try dsimp only at h)
      · obtain ⟨hv, hs2⟩ : Value.struct_ vs = v ∧ s' = s2 := by simpa using h
        subst hv hs2
        obtain ⟨q1, q2, q3⟩ := decodeTys_take ts input cap s hs vs s' hin
        refine ⟨q1, q2, ?_⟩
        intro n hn
        rw [decodeTy, q3 n hn]
      · simp at h
      · simp at h
  | .cenum variants, input, cap, s => by
      intro hs v s2 h
      rcases hrb : readBytes input cap s with ⟨f, s'⟩ | e | _ <;>
          rw [decodeTy, hrb] at h <;> (try dsimp only at h)
      · obtain ⟨h1, h2, h3⟩ := readBytes_spec input cap s hs f s' hrb
        by_cases hf : f ∈ variants
        · rw [if_pos hf] at h
          obtain ⟨hv, hs2⟩ : Value.unitVariant f = v ∧ s' = s2 := by
            simpa using h
          subst hv hs2
          refine ⟨h1, h2, ?_⟩
          intro n hn
          rw [decodeTy, h3 n hn]
          dsimp only
          rw [if_pos hf]
        · rw [if_neg hf] at h
          simp at h
      · simp at h
      · simp at h
  | .cenumData variants, input, cap, s => by
      intro hs v s2 h
      rcases hrb : readBytes input cap s with ⟨f, s'⟩ | e | _ <;>
          rw [decodeTy, hrb] at h <;> (try dsimp only at h)
      · split at h <;> simp at h
      · simp at h
      · simp at h
  | .newtype t, input, cap, s => by
      intro hs v s2 h
      simp [decodeTy] at h
  | .any, input, cap, s => by
      intro hs v s2 h
      simp [decodeTy] at h
  | .map, input, cap, s => by
      intro hs v s2 h
      simp [decodeTy] at h

/-- `decodeTys` version of `decodeTy_take`, for the element list of a
fixed-arity composite. -/
theorem decodeTys_take :
    ∀ (ts : Tys) (input : List Nat) (cap : Nat) (s : DState),
      s.nread ≤ input.length → ∀ (vs : Values) (s2 : DState),
        decodeTys input cap ts s = .ok (vs, s2) →
        s.nread ≤ s2.nread ∧ s2.nread ≤ input.length ∧
        ∀ n, s2.nread ≤ n → decodeTys (input.take n) cap ts s = .ok (vs, s2)
  | .nil, input, cap, s => by
      intro hs vs s2 h
      rw [decodeTys] at h
      obtain ⟨hv, hs2⟩ : Values.nil = vs ∧ s = s2 := by simpa using h
      subst hv hs2
      refine ⟨le_refl _, hs, ?_⟩
      intro n hn
      rw [decodeTys]
  | .cons t ts, input, cap, s => by
      intro hs vs s2 h
      rw [decodeTys] at h
      by_cases hre : s.recordEnd
      · rw [if_pos hre] at h
        simp at h
      · rw [if_neg hre] at h
        rcases h1 : decodeTy input cap t s with ⟨v', s'⟩ | e | _ <;>
            rw [h1] at h <;> (try dsimp only at h)
        · rcases h2 : decodeTys input cap ts s' with ⟨vs', s''⟩ | e | _ <;>
              rw [h2] at h <;> (try dsimp only at h)
          · obtain ⟨hv, hs2⟩ : Values.cons v' vs' = vs ∧ s'' = s2 := by
              simpa using h
            subst hv hs2
            obtain ⟨q1, q2, q3⟩ := decodeTy_take t input cap s hs v' s' h1
            obtain ⟨r1, r2, r3⟩ := decodeTys_take ts input cap s' q2 vs' s'' h2
            refine ⟨by omega, r2, ?_⟩
            intro n hn
            rw [decodeTys, if_neg hre, q3 n (by omega)]
            dsimp only
            rw [r3 n hn]
          · simp at h
          · simp at h
        · simp at h
        · simp at h
end

/-- C3: prefix closure of deserialization. For every type shape `t` and every
input on which `Reader::deserialize` succeeds returning value `v` and byte
count `n`, a fresh `Reader::deserialize` on the first `n` bytes of the input
also succeeds and returns the same `v` and the same `n`. -/
theorem c3_take_closed (t : Ty) (cap : Nat) (input : List Nat) (v : Value)
    (n : Nat) (h : decodeTop t cap input = .ok (v, n)) :
    decodeTop t cap (input.take n) = .ok (v, n) := by
  rw [decodeTop] at h
  rcases hd : decodeTy input cap t initDState with ⟨v', s⟩ | e | _ <;>
      rw [hd] at h <;> (try dsimp only at h)
  · obtain ⟨hv, hn⟩ : v' = v ∧ s.nread = n := by simpa using h
    subst hv
    obtain ⟨q1, q2, q3⟩ :=
      decodeTy_take t input cap initDState (by simp [initDState]) v' s hd
    rw [decodeTop, q3 n (by omega)]
    dsimp only
    rw [hn]
  · simp at h
  · simp at h

/-- Witness for the prefix-closure theorem: decoding `bool` from the bytes of
`true\nx` consumes 5 bytes, and decoding the 5-byte prefix `true\n` gives
the same value and count. -/
theorem c3_witness :
    decodeTop .bool 4 [116, 114, 117, 101, 10, 120] = .ok (.bool true, 5) ∧
    decodeTop .bool 4 ([116, 114, 117, 101, 10, 120].take 5) =
      .ok (.bool true, 5) :=
  ⟨rfl, c3_take_closed .bool 4 [116, 114, 117, 101, 10, 120] (.bool true) 5 rfl⟩

end SerdeCsvCore
